import Mathlib

/-!
Verification of the tradingdate repository's core calendar engine.

The Python source is shallowly embedded as executable Lean functions:
  - a calendar (TradingCalendar.cache) is an ordered association list
    year -> (month -> sorted day list), mirroring the nested dicts;
  - the recursive lookups get_nearest_date_after / get_nearest_date_before
    are embedded with an explicit fuel argument that strictly exceeds the
    recursion depth (the Python recursion advances month/year monotonically
    and is bounded by the calendar's minimum and maximum year); lemmas show
    the fuel never runs out, which is the termination argument;
  - exceptions are modelled with Except over an error enumeration.
-/

namespace Tradingdate

/-- Error kinds corresponding to the Python exceptions raised by the source
(NotOnCalendarError, OutOfCalendarError, ValueError, TypeError, KeyError,
IndexError, RuntimeError); fuelOut is the artificial out-of-fuel marker,
shown unreachable. -/
inductive Err where
  | notOnCalendar
  | outOfCalendar
  | valueError
  | typeError
  | keyError
  | indexError
  | runtimeError
  | fuelOut
deriving DecidableEq

/-- A trading date triple, as stored in TradingDate.__date. The year is an
Int because the Python recursion can step below year 0 via string
formatting; months and days are the nonnegative 2-digit slices produced by
split_date. -/
structure TDate where
  y : Int
  m : Nat
  d : Nat
deriving DecidableEq

/-- Month entry of a year dict: month number and its (sorted) day list. -/
abbrev YDict := List (Nat × List Nat)

/-- TradingCalendar.cache: ordered mapping year -> month -> day list. -/
abbrev CalDict := List (Int × YDict)

/-- The canonical integer encoding yyyymmdd of a date (TradingDate.asint,
for the 2-digit month/day ranges produced by the source). -/
def tdenc (t : TDate) : Int := t.y * 10000 + (t.m : Int) * 100 + (t.d : Int)

/-- Python dict lookup self.cache[y] (combined with the membership test
y in self.cache). -/
def lookupY (cal : CalDict) (y : Int) : Option YDict :=
  (cal.find? (fun p => p.1 == y)).map (·.2)

/-- Python dict lookup ydict[m] combined with m in ydict. -/
def lookupM (yd : YDict) (m : Nat) : Option (List Nat) :=
  (yd.find? (fun p => p.1 == m)).map (·.2)

/-- The list of year keys of the calendar dict. -/
def yearKeys (cal : CalDict) : List Int := cal.map (·.1)

/-- Python min() over a list (ValueError on empty is modelled by none). -/
def pyMin? {α : Type} [LinearOrder α] : List α → Option α
  | [] => none
  | x :: xs => some (xs.foldl min x)

/-- Python max() over a list (ValueError on empty is modelled by none). -/
def pyMax? {α : Type} [LinearOrder α] : List α → Option α
  | [] => none
  | x :: xs => some (xs.foldl max x)

/-- All dates of one year of the calendar, in stored order
(the inner generator of TradingCalendar.__iter__). -/
def flattenY (y : Int) : YDict → List TDate
  | [] => []
  | (m, ds) :: rest => ds.map (fun d => ⟨y, m, d⟩) ++ flattenY y rest

/-- All dates of the calendar in stored order (TradingCalendar.__iter__). -/
def flatten : CalDict → List TDate
  | [] => []
  | (y, yd) :: rest => flattenY y yd ++ flatten rest

/-- TradingCalendar.__contains__: split the value into (y, m, d) and test
the nested membership. -/
def containsB (cal : CalDict) (t : TDate) : Bool :=
  match lookupY cal t.y with
  | none => false
  | some yd =>
    match lookupM yd t.m with
    | none => false
    | some ds => ds.contains t.d

/-- The data invariants of a calendar dict stated by the spec: non-empty,
strictly ascending year keys, per year non-empty strictly ascending month
keys with Gregorian month numbers, per month non-empty strictly ascending
day lists with day-of-month numbers. -/
def WFcal (cal : CalDict) : Prop :=
  cal ≠ [] ∧ (yearKeys cal).Pairwise (· < ·) ∧
    ∀ p ∈ cal, p.2 ≠ [] ∧ (p.2.map Prod.fst).Pairwise (· < ·) ∧
      ∀ q ∈ p.2, q.2 ≠ [] ∧ q.2.Pairwise (· < ·) ∧ 1 ≤ q.1 ∧ q.1 ≤ 12 ∧
        ∀ d ∈ q.2, 1 ≤ d ∧ d ≤ 31

instance : DecidablePred WFcal := fun cal => by
  unfold WFcal
  infer_instance

/-- Default of Python max(self.cache), used only to size the fuel. -/
def pyMaxD (cal : CalDict) : Int := (pyMax? (yearKeys cal)).getD 0

/-- Default of Python min(self.cache), used only to size the fuel. -/
def pyMinD (cal : CalDict) : Int := (pyMin? (yearKeys cal)).getD 0

/-- Fuel bound for get_nearest_date_after: the recursion increases the month
within a year (at most 13 values reachable) and otherwise increases the year,
stopping at the maximum year of the calendar. -/
def fuelA (cal : CalDict) (y : Int) (m : Nat) : Nat :=
  (pyMaxD cal + 1 - y).toNat * 14 + (13 - min m 13) + 1

/-- Fuel bound for get_nearest_date_before: the recursion decreases the month
within a year and otherwise decreases the year, stopping at the minimum year
of the calendar. -/
def fuelB (cal : CalDict) (y : Int) (m : Nat) : Nat :=
  (y + 1 - pyMinD cal).toNat * 14 + m + 1

/-- TradingCalendar.get_nearest_date_after, fuelled. The recursive calls
mirror the source exactly: the raw strings built by the source
(for example the next-month string with year y, month m+1, day 01, or the
next-year string with year y+1, month 01, day 01) re-split into the very
triples passed here, because month and day are always zero-padded 2-digit
fields in the reachable range. -/
def get_nearest_date_afterF : Nat → CalDict → Int → Nat → Nat → Except Err TDate
  | 0, _, _, _, _ => .error .fuelOut
  | fuel + 1, cal, y, m, d =>
    match lookupY cal y with
    | some ydict =>
      match lookupM ydict m with
      | some mlist =>
        if mlist.contains d then .ok ⟨y, m, d⟩
        else
          match mlist.getLast? with
          | none => .error .indexError
          | some dl =>
            if d ≤ dl then
              match mlist.find? (fun dd => decide (d ≤ dd)) with
              | some dd => .ok ⟨y, m, dd⟩
              | none => .error .runtimeError
            else if 12 ≤ m then get_nearest_date_afterF fuel cal (y + 1) 1 1
            else get_nearest_date_afterF fuel cal y (m + 1) 1
      | none =>
        if 12 ≤ m then get_nearest_date_afterF fuel cal (y + 1) 1 1
        else get_nearest_date_afterF fuel cal y (m + 1) 1
    | none =>
      match pyMax? (yearKeys cal) with
      | none => .error .valueError
      | some maxy =>
        if y < maxy then get_nearest_date_afterF fuel cal (y + 1) 1 1
        else .error .outOfCalendar

/-- TradingCalendar.get_nearest_date_before, fuelled. The month m - 1 uses
truncated Nat subtraction; for m = 0 the source formats month -1 whose
2-character slice also re-splits to a month below 1, and both fall into the
m below 2 branch, so the behaviours agree on every reachable input. -/
def get_nearest_date_beforeF : Nat → CalDict → Int → Nat → Nat → Except Err TDate
  | 0, _, _, _, _ => .error .fuelOut
  | fuel + 1, cal, y, m, d =>
    match lookupY cal y with
    | some ydict =>
      match lookupM ydict m with
      | some mlist =>
        if mlist.contains d then .ok ⟨y, m, d⟩
        else
          match mlist.head? with
          | none => .error .indexError
          | some dh =>
            if dh ≤ d then
              match mlist.reverse.find? (fun dd => decide (dd ≤ d)) with
              | some dd => .ok ⟨y, m, dd⟩
              | none => .error .runtimeError
            else if m ≤ 1 then get_nearest_date_beforeF fuel cal (y - 1) 12 31
            else get_nearest_date_beforeF fuel cal y (m - 1) 31
      | none =>
        if m ≤ 1 then get_nearest_date_beforeF fuel cal (y - 1) 12 31
        else get_nearest_date_beforeF fuel cal y (m - 1) 31
    | none =>
      match pyMin? (yearKeys cal) with
      | none => .error .valueError
      | some miny =>
        if miny < y then get_nearest_date_beforeF fuel cal (y - 1) 12 31
        else .error .outOfCalendar

/-- TradingCalendar.get_nearest_date_after on a pre-split date triple. -/
def get_nearest_date_after (cal : CalDict) (y : Int) (m d : Nat) : Except Err TDate :=
  get_nearest_date_afterF (fuelA cal y m) cal y m d

/-- TradingCalendar.get_nearest_date_before on a pre-split date triple. -/
def get_nearest_date_before (cal : CalDict) (y : Int) (m d : Nat) : Except Err TDate :=
  get_nearest_date_beforeF (fuelB cal y m) cal y m d

/-- The calendar used by the spec's end-to-end scenarios: years 2025,
months January and February, trading days 1, 11, 21 of each. -/
def sampleCal : CalDict := [(2025, [(1, [1, 11, 21]), (2, [1, 11, 21])])]

/-- TradingDate.__add__ for a nonnegative count, fuelled (the remaining
count strictly decreases on each recursive call, so count + 1 fuel always
suffices). month.index raising ValueError and the dict lookups raising
KeyError are modelled by the corresponding error values. The overflow
branch re-snaps at the first day of month m + 1 exactly as the source
formats it. -/
def addNF : Nat → CalDict → TDate → Nat → Except Err TDate
  | 0, _, _, _ => .error .fuelOut
  | fuel + 1, cal, t, v =>
    match lookupY cal t.y with
    | none => .error .keyError
    | some yd =>
      match lookupM yd t.m with
      | none => .error .keyError
      | some month =>
        match month.findIdx? (fun x => x == t.d) with
        | none => .error .valueError
        | some idx =>
          if h : idx + v < month.length then .ok ⟨t.y, t.m, month.get ⟨idx + v, h⟩⟩
          else
            match get_nearest_date_after cal t.y (t.m + 1) 1 with
            | .error e => .error e
            | .ok t2 => addNF fuel cal t2 (v - (month.length - idx))

/-- TradingDate.__sub__ for a nonnegative count, fuelled. The underflow
branch re-snaps at day 31 of month m - 1; for m = 1 the source formats
month 00 and for m = 0 month -1, and get_nearest_date_before sends both
into its m below 2 branch, matching the truncated subtraction here. -/
def subNF : Nat → CalDict → TDate → Nat → Except Err TDate
  | 0, _, _, _ => .error .fuelOut
  | fuel + 1, cal, t, v =>
    match lookupY cal t.y with
    | none => .error .keyError
    | some yd =>
      match lookupM yd t.m with
      | none => .error .keyError
      | some month =>
        match month.findIdx? (fun x => x == t.d) with
        | none => .error .valueError
        | some idx =>
          if v ≤ idx then
            match month[idx - v]? with
            | some d2 => .ok ⟨t.y, t.m, d2⟩
            | none => .error .indexError
          else
            match get_nearest_date_before cal t.y (t.m - 1) 31 with
            | .error e => .error e
            | .ok t2 => subNF fuel cal t2 (v - (idx + 1))

/-- TradingDate.__add__ restricted to a nonnegative count. -/
def addN (cal : CalDict) (t : TDate) (v : Nat) : Except Err TDate :=
  addNF (v + 1) cal t v

/-- TradingDate.__sub__ restricted to a nonnegative count. -/
def subN (cal : CalDict) (t : TDate) (v : Nat) : Except Err TDate :=
  subNF (v + 1) cal t v

/-- TradingDate.__add__: a negative count is delegated to subtraction of
its absolute value, as in the source. -/
def tdadd (cal : CalDict) (t : TDate) (v : Int) : Except Err TDate :=
  if v < 0 then subN cal t v.natAbs else addN cal t v.toNat

/-- TradingDate.__sub__: a negative count is delegated to addition of its
absolute value, as in the source. -/
def tdsub (cal : CalDict) (t : TDate) (v : Int) : Except Err TDate :=
  if v < 0 then addN cal t v.natAbs else subN cal t v.toNat

/-- TradingDate.next: re-snap from the raw calendar day d + 1. -/
def next (cal : CalDict) (t : TDate) : Except Err TDate :=
  get_nearest_date_after cal t.y t.m (t.d + 1)

/-- TradingDate.last: re-snap from the raw calendar day d - 1 (truncated
at 0; the source formats day 00 for d = 1, which splits back to 0). -/
def lastDate (cal : CalDict) (t : TDate) : Except Err TDate :=
  get_nearest_date_before cal t.y t.m (t.d - 1)

/-- Iterating TradingDate.next n times (used to state reachability). -/
def nextN (cal : CalDict) : Nat → TDate → Except Err TDate
  | 0, t => .ok t
  | n + 1, t =>
    match next cal t with
    | .ok t2 => nextN cal n t2
    | .error e => .error e

/-- The missing-date policy tokens accepted by the two resolver wrappers
(src/src/core.py get_trading_date uses use_next / use_last / raise,
src/src/tradingdate/core.py date uses use_next / use_before / raise). -/
inductive Missing where
  | use_next
  | use_before
  | use_last
  | raiseErr
deriving DecidableEq

/-- get_trading_date from src/src/core.py with the date pre-split into
(y, m, d) as split_date does. Note the source's raise branch is
unconditional: it never consults the calendar. A token not in this
function's Literal set falls to the ValueError branch. -/
def get_trading_date (cal : CalDict) (y : Int) (m d : Nat) (missing : Missing) :
    Except Err TDate :=
  match missing with
  | .use_next => get_nearest_date_after cal y m d
  | .use_last => get_nearest_date_before cal y m d
  | .raiseErr => .error .notOnCalendar
  | .use_before => .error .valueError

/-- date from src/src/tradingdate/core.py, same structure with the
use_before token instead of use_last. -/
def dateResolve (cal : CalDict) (y : Int) (m d : Nat) (missing : Missing) :
    Except Err TDate :=
  match missing with
  | .use_next => get_nearest_date_after cal y m d
  | .use_before => get_nearest_date_before cal y m d
  | .raiseErr => .error .notOnCalendar
  | .use_last => .error .valueError

/-- TradingCalendar.start: min year key, min month key of that year, first
stored day of that month. -/
def startDate (cal : CalDict) : Except Err TDate :=
  match pyMin? (yearKeys cal) with
  | none => .error .valueError
  | some y =>
    match lookupY cal y with
    | none => .error .keyError
    | some yd =>
      match pyMin? (yd.map Prod.fst) with
      | none => .error .valueError
      | some m =>
        match lookupM yd m with
        | none => .error .keyError
        | some ds =>
          match ds.head? with
          | none => .error .indexError
          | some d => .ok ⟨y, m, d⟩

/-- TradingCalendar.end: max year key, max month key of that year, last
stored day of that month. -/
def endDate (cal : CalDict) : Except Err TDate :=
  match pyMax? (yearKeys cal) with
  | none => .error .valueError
  | some y =>
    match lookupY cal y with
    | none => .error .keyError
    | some yd =>
      match pyMax? (yd.map Prod.fst) with
      | none => .error .valueError
      | some m =>
        match lookupM yd m with
        | none => .error .keyError
        | some ds =>
          match ds.getLast? with
          | none => .error .indexError
          | some d => .ok ⟨y, m, d⟩

/-! The calendar engine registry and the TradingCalendar constructor. -/

/-- The calendar kind: a whole TradingCalendar or one of the view
subclasses (YearCalendar, MonthCalendar, WeekCalendar, DayCalendar). -/
inductive CKind where
  | whole
  | year
  | month
  | week
  | day
deriving DecidableEq

/-- A TradingCalendar object: its (sub)class, id and cache dict. -/
structure CalObj where
  kind : CKind
  id : String
  cache : CalDict
deriving DecidableEq

/-- TradingCalendar.__init__: an empty caldict raises ValueError
(the source message is "empty calendar"); otherwise the object stores the
id and the cache. -/
def TradingCalendar_init (calendar_id : String) (caldict : CalDict) :
    Except Err CalObj :=
  if caldict = [] then .error .valueError else .ok ⟨.whole, calendar_id, caldict⟩

/-- The CalendarEngine class-level cache: calendar id to caldict. -/
abbrev EngineState := List (String × CalDict)

/-- CalendarEngine.register_calendar: Python dict assignment on the cache,
replacing an existing entry in place or appending a new one. -/
def register_calendar (st : EngineState) (calendar_id : String) (cd : CalDict) :
    EngineState :=
  if st.any (fun p => p.1 == calendar_id) then
    st.map (fun p => if p.1 == calendar_id then (calendar_id, cd) else p)
  else st ++ [(calendar_id, cd)]

/-- CalendarEngine.get_calendar: Python dict subscript on the cache, so an
unregistered id raises KeyError. -/
def get_calendar (st : EngineState) (calendar_id : String) : Except Err CalDict :=
  match st.find? (fun p => p.1 == calendar_id) with
  | some p => .ok p.2
  | none => .error .keyError

/-- split_date of a raw integer date: the last two decimal digits are the
day, the previous two the month, the rest the year. This agrees with the
source's string slicing for every canonical nonnegative yyyymmdd input. -/
def splitDate (n : Int) : TDate :=
  ⟨n / 10000, ((n / 100) % 100).toNat, (n % 100).toNat⟩

/-- Insert a day into a year's month dict the way the Python week loop
does: append the day to an existing month entry, or append a new month
entry at the end (Python dict insertion order). -/
def insertMonth (yd : YDict) (m d : Nat) : YDict :=
  match yd with
  | [] => [(m, [d])]
  | (m2, ds) :: rest =>
    if m2 == m then (m2, ds ++ [d]) :: rest
    else (m2, ds) :: insertMonth rest m d

/-- Insert a date triple into a caldict the way the Python week loop does
(new year keys are appended at the end, as in dict insertion order). -/
def insertDay (c : CalDict) (t : TDate) : CalDict :=
  match c with
  | [] => [(t.y, [(t.m, [t.d])])]
  | (y2, yd) :: rest =>
    if y2 == t.y then (y2, insertMonth yd t.m t.d) :: rest
    else (y2, yd) :: insertDay rest t

/-- Modelled from the spec: the caldict built from a raw date list. The
CalendarEngine bundled under src predates core.make_calendar's 3-argument
register_calendar call, so the list-to-caldict grouping step is missing
from src; the spec's registry interface stores a day-set structure keyed
year to month to day list built from the supplied dates. -/
def buildCalDict (date_list : List Int) : CalDict :=
  date_list.foldl (fun c n => insertDay c (splitDate n)) []

/-- Modelled from the spec: make_calendar registers the day list under the
id (overwriting any previous entry) and returns the calendar registered
under that id. Validation is the TradingCalendar constructor's own
non-empty check, which is in src (core.py TradingCalendar.__init__). -/
def make_calendar (st : EngineState) (calendar_id : String)
    (date_list : List Int) : EngineState × Except Err CalObj :=
  match TradingCalendar_init calendar_id (buildCalDict date_list) with
  | .error e => (st, .error e)
  | .ok _ =>
    let st2 := register_calendar st calendar_id (buildCalDict date_list)
    (st2, (get_calendar st2 calendar_id).map (fun cd => ⟨.whole, calendar_id, cd⟩))

/-! Polymorphic comparison machinery of TradingCalendar.__eq__ and
TradingCalendar.__valur2str. -/

/-- A value a calendar can be compared against: another calendar object, a
raw integer, a raw string, or a TradingDate. -/
inductive Operand where
  | calv (c : CalObj)
  | intv (n : Int)
  | strv (s : String)
  | datev (t : TDate)

/-- First year key of a cache dict (list(self.cache)[0]). -/
def firstYearKey (c : CalDict) : Int :=
  match c with
  | [] => 0
  | (y, _) :: _ => y

/-- First year's month dict of a cache dict. -/
def firstYDict (c : CalDict) : YDict :=
  match c with
  | [] => []
  | (_, yd) :: _ => yd

/-- First month key of a year dict. -/
def firstMonthKey (yd : YDict) : Nat :=
  match yd with
  | [] => 0
  | (m, _) :: _ => m

/-- First month's day list of a year dict. -/
def firstDays (yd : YDict) : List Nat :=
  match yd with
  | [] => []
  | (_, ds) :: _ => ds

/-- The start date of a cache with a default for the error cases that
Python would raise on (only used inside hash values no theorem relies
on). -/
def startD (c : CalDict) : TDate :=
  match startDate c with
  | .ok t => t
  | .error _ => ⟨0, 0, 0⟩

/-- Gregorian leap year test. -/
def isLeap (y : Int) : Bool :=
  (y % 4 == 0 && y % 100 != 0) || y % 400 == 0

/-- Length of a Gregorian month. -/
def daysInMonth (y : Int) : Nat → Nat
  | 2 => if isLeap y then 29 else 28
  | 4 => 30
  | 6 => 30
  | 9 => 30
  | 11 => 30
  | _ => 31

/-- Days since 1970-01-01 of a proleptic Gregorian date (the standard
days-from-civil algorithm with truncating division, which is what
datetime.date.toordinal computes up to the epoch shift). -/
def toOrd (t : TDate) : Int :=
  let y : Int := if t.m ≤ 2 then t.y - 1 else t.y
  let era : Int := (if 0 ≤ y then y else y - 399).tdiv 400
  let yoe : Int := y - era * 400
  let mp : Int := ((t.m : Int) + 9) % 12
  let doy : Int := (153 * mp + 2).tdiv 5 + (t.d : Int) - 1
  let doe : Int := yoe * 365 + yoe.tdiv 4 - yoe.tdiv 100 + doy
  era * 146097 + doe - 719468

/-- Gregorian date from days since 1970-01-01 (the standard civil-from-days
algorithm; this is how datetime.date plus timedelta is computed). -/
def fromOrd (z0 : Int) : TDate :=
  let z : Int := z0 + 719468
  let era : Int := (if 0 ≤ z then z else z - 146096).tdiv 146097
  let doe : Int := z - era * 146097
  let yoe : Int := (doe - doe.tdiv 1460 + doe.tdiv 36524 - doe.tdiv 146096).tdiv 365
  let doy : Int := doe - (365 * yoe + yoe.tdiv 4 - yoe.tdiv 100)
  let mp : Int := (5 * doy + 2).tdiv 153
  let d : Int := doy - (153 * mp + 2).tdiv 5 + 1
  let m : Int := if mp < 10 then mp + 3 else mp - 9
  ⟨(if m ≤ 2 then yoe + era * 400 + 1 else yoe + era * 400), m.toNat, d.toNat⟩

/-- datetime.date.weekday: Monday is 0 (1970-01-01 was a Thursday). -/
def pyWeekday (t : TDate) : Nat := ((toOrd t + 3) % 7).toNat

/-- Day of year, 1-based. -/
def dayOfYear (t : TDate) : Nat := (toOrd t - toOrd ⟨t.y, 1, 1⟩ + 1).toNat

/-- strftime %W: week number of the year with Monday as the first day;
days before the first Monday are week 0. -/
def pyWeekNum (t : TDate) : Nat :=
  (((dayOfYear t : Int) - (pyWeekday t : Int) + 6).tdiv 7).toNat

/-- datetime.date construction validity (year 1..9999, real month/day). -/
def pyDateValid (t : TDate) : Bool :=
  1 ≤ t.y && t.y ≤ 9999 && 1 ≤ t.m && t.m ≤ 12 && 1 ≤ t.d &&
    t.d ≤ daysInMonth t.y t.m

/-- The 7 consecutive calendar days Monday..Sunday around t computed by
TradingDate.week via date arithmetic. -/
def weekWindow (t : TDate) : List TDate :=
  (List.range 7).map (fun i => fromOrd (toOrd t + (i : Int) - (pyWeekday t : Int)))

/-- TradingDate.week: filter the Monday..Sunday window by calendar
membership, building the nested dict in insertion order; the WeekCalendar
constructor (TradingCalendar.__init__) rejects an empty result. An invalid
stored triple makes datetime.date raise ValueError. -/
def week (cal : CalDict) (t : TDate) : Except Err CalDict :=
  if pyDateValid t then
    if (weekWindow t).foldl
        (fun c u => if containsB cal u then insertDay c u else c) [] = [] then
      .error .valueError
    else
      .ok ((weekWindow t).foldl
        (fun c u => if containsB cal u then insertDay c u else c) [])
  else .error .valueError

/-- Python hash of a calendar object, per class: YearCalendar yyyy,
MonthCalendar yyyymm, WeekCalendar (hash(start) - 1) concatenated with the
2-digit %W week number, DayCalendar yyyymmdd. A whole TradingCalendar
hashes the Python string hash of its repr, a runtime value no comparison
ever observes, because TradingCalendar.__valur2str raises TypeError for a
whole calendar before any hash comparison; it is modelled as 0. -/
def pyHashCal (c : CalObj) : Int :=
  match c.kind with
  | .whole => 0
  | .year => firstYearKey c.cache
  | .month => firstYearKey c.cache * 100 + (firstMonthKey (firstYDict c.cache) : Int)
  | .week => (tdenc (startD c.cache) - 1) * 100 + (pyWeekNum (startD c.cache) : Int)
  | .day =>
    firstYearKey c.cache * 10000 + (firstMonthKey (firstYDict c.cache) : Int) * 100 +
      ((firstDays (firstYDict c.cache)).headD 0 : Int)

/-- Whether an operand is a whole, unrestricted TradingCalendar
(value.__class__ is TradingCalendar). -/
def operandIsWholeCal : Operand → Bool
  | .calv c => c.kind == .whole
  | _ => false

/-- TradingCalendar.__valur2str: raises TypeError when either side is a
whole TradingCalendar; otherwise stringifies ints directly, calendar and
date values via their hash, and passes strings through. -/
def valur2str (self : CalObj) (v : Operand) : Except Err String :=
  if operandIsWholeCal v || self.kind == .whole then .error .typeError
  else
    match v with
    | .intv n => .ok (toString n)
    | .calv c => .ok (toString (pyHashCal c))
    | .datev t => .ok (toString (tdenc t))
    | .strv s => .ok s

/-- TradingCalendar.__eq__: two whole TradingCalendar objects compare by
id; every other combination compares the string of hash(self) with
__valur2str(value), whose TypeError propagates. -/
def calEq (self : CalObj) (v : Operand) : Except Err Bool :=
  match v with
  | .calv c =>
    if c.kind == .whole && self.kind == .whole then .ok (self.id == c.id)
    else (valur2str self v).map (fun s => toString (pyHashCal self) == s)
  | _ => (valur2str self v).map (fun s => toString (pyHashCal self) == s)

/-- A whole (unrestricted) TradingCalendar object over the sample calendar
with the id from the spec scenarios. -/
def sampleWhole : CalObj := ⟨.whole, "user-defined", sampleCal⟩

/-- A second whole TradingCalendar object with a different id. -/
def sampleWhole2 : CalObj := ⟨.whole, "chinese", sampleCal⟩

/-- A year view object over the sample calendar. -/
def sampleYearView : CalObj := ⟨.year, "user-defined", sampleCal⟩

/-- Postcondition of the nearest-date lookups: a success returns a member
of the calendar and the only possible failure is OutOfCalendarError. -/
def NearOk (cal : CalDict) : Except Err TDate → Prop
  | .ok t => t ∈ flatten cal
  | .error e => e = .outOfCalendar

/-- Full characterization of get_nearest_date_after at encoded input e: a
success returns the minimum calendar member whose encoding is at least e,
and a failure means no member has encoding at least e. -/
def AfterSpec (cal : CalDict) (e : Int) : Except Err TDate → Prop
  | .ok t => t ∈ flatten cal ∧ e ≤ tdenc t ∧
      ∀ u ∈ flatten cal, e ≤ tdenc u → tdenc t ≤ tdenc u
  | .error _ => ∀ u ∈ flatten cal, tdenc u < e

/-- Full characterization of get_nearest_date_before at encoded input e: a
success returns the maximum calendar member whose encoding is at most e,
and a failure means no member has encoding at most e. -/
def BeforeSpec (cal : CalDict) (e : Int) : Except Err TDate → Prop
  | .ok t => t ∈ flatten cal ∧ tdenc t ≤ e ∧
      ∀ u ∈ flatten cal, tdenc u ≤ e → tdenc u ≤ tdenc t
  | .error _ => ∀ u ∈ flatten cal, e < tdenc u

/-! Basic lemmas about Python min/max over key lists. -/

variable {α : Type} [LinearOrder α]

theorem le_foldl_max (l : List α) (b : α) : b ≤ l.foldl max b := by
  induction l generalizing b with
  | nil => simp
  | cons x xs ih => exact le_trans (le_max_left b x) (ih (max b x))

theorem mem_le_foldl_max {x : α} {l : List α} (hx : x ∈ l) (b : α) :
    x ≤ l.foldl max b := by
  induction l generalizing b with
  | nil => cases hx
  | cons a as ih =>
    rcases List.mem_cons.mp hx with rfl | h
    · exact le_trans (le_max_right b x) (le_foldl_max as _)
    · exact ih h _

theorem foldl_max_mem (l : List α) (b : α) :
    l.foldl max b = b ∨ l.foldl max b ∈ l := by
  induction l generalizing b with
  | nil => left; rfl
  | cons a as ih =>
    simp only [List.foldl_cons]
    rcases ih (max b a) with h | h
    · rcases max_choice b a with h1 | h1
      · left; rw [h, h1]
      · right; rw [h, h1]; exact List.mem_cons_self a as
    · right; exact List.mem_cons_of_mem _ h

theorem foldl_min_le (l : List α) (b : α) : l.foldl min b ≤ b := by
  induction l generalizing b with
  | nil => simp
  | cons x xs ih => exact le_trans (ih (min b x)) (min_le_left b x)

theorem foldl_min_le_mem {x : α} {l : List α} (hx : x ∈ l) (b : α) :
    l.foldl min b ≤ x := by
  induction l generalizing b with
  | nil => cases hx
  | cons a as ih =>
    rcases List.mem_cons.mp hx with rfl | h
    · exact le_trans (foldl_min_le as _) (min_le_right b x)
    · exact ih h _

theorem foldl_min_mem (l : List α) (b : α) :
    l.foldl min b = b ∨ l.foldl min b ∈ l := by
  induction l generalizing b with
  | nil => left; rfl
  | cons a as ih =>
    simp only [List.foldl_cons]
    rcases ih (min b a) with h | h
    · rcases min_choice b a with h1 | h1
      · left; rw [h, h1]
      · right; rw [h, h1]; exact List.mem_cons_self a as
    · right; exact List.mem_cons_of_mem _ h

theorem pyMax?_spec {l : List α} {M : α} (h : pyMax? l = some M) :
    M ∈ l ∧ ∀ x ∈ l, x ≤ M := by
  match l, h with
  | x :: xs, h =>
    have hM : xs.foldl max x = M := by simpa [pyMax?] using h
    constructor
    · rcases foldl_max_mem xs x with h1 | h1
      · rw [← hM, h1]; exact List.mem_cons_self x xs
      · rw [← hM]; exact List.mem_cons_of_mem _ h1
    · intro z hz
      rcases List.mem_cons.mp hz with rfl | hz2
      · rw [← hM]; exact le_foldl_max xs z
      · rw [← hM]; exact mem_le_foldl_max hz2 x

theorem pyMin?_spec {l : List α} {M : α} (h : pyMin? l = some M) :
    M ∈ l ∧ ∀ x ∈ l, M ≤ x := by
  match l, h with
  | x :: xs, h =>
    have hM : xs.foldl min x = M := by simpa [pyMin?] using h
    constructor
    · rcases foldl_min_mem xs x with h1 | h1
      · rw [← hM, h1]; exact List.mem_cons_self x xs
      · rw [← hM]; exact List.mem_cons_of_mem _ h1
    · intro z hz
      rcases List.mem_cons.mp hz with rfl | hz2
      · rw [← hM]; exact foldl_min_le xs z
      · rw [← hM]; exact foldl_min_le_mem hz2 x

theorem pyMax?_eq_none {l : List α} (h : pyMax? l = none) : l = [] := by
  cases l with
  | nil => rfl
  | cons x xs => simp [pyMax?] at h

theorem pyMin?_eq_none {l : List α} (h : pyMin? l = none) : l = [] := by
  cases l with
  | nil => rfl
  | cons x xs => simp [pyMin?] at h

/-! Association list lookups modelling Python dict access. -/

section Assoc

variable {κ β : Type} [BEq κ] [LawfulBEq κ] [LinearOrder κ]

omit [LinearOrder κ] in
theorem find?_key_some {l : List (κ × β)} {k : κ} {p : κ × β}
    (h : l.find? (fun q => q.1 == k) = some p) : p ∈ l ∧ p.1 = k :=
  ⟨List.mem_of_find?_eq_some h, by have := List.find?_some h; simpa using this⟩

omit [LinearOrder κ] in
theorem find?_key_none {l : List (κ × β)} {k : κ}
    (h : l.find? (fun q => q.1 == k) = none) : ∀ v : β, (k, v) ∉ l := by
  intro v hv
  have := List.find?_eq_none.mp h _ hv
  simp at this

theorem find?_key_of_mem {l : List (κ × β)} {k : κ} {v : β}
    (hpw : (l.map Prod.fst).Pairwise (· < ·)) (h : (k, v) ∈ l) :
    l.find? (fun q => q.1 == k) = some (k, v) := by
  induction l with
  | nil => cases h
  | cons p rest ih =>
    simp only [List.map_cons, List.pairwise_cons] at hpw
    rcases List.mem_cons.mp h with rfl | h2
    · simp [List.find?]
    · have hk : k ∈ rest.map Prod.fst := List.mem_map.mpr ⟨_, h2, rfl⟩
      have hlt : p.1 < k := hpw.1 _ hk
      have hne : (p.1 == k) = false := by
        simp only [beq_eq_false_iff_ne, ne_eq]
        exact fun hc => absurd hc (ne_of_lt hlt)
      simp only [List.find?, hne]
      exact ih hpw.2 h2

end Assoc

theorem lookupY_mem {cal : CalDict} {y : Int} {yd : YDict}
    (h : lookupY cal y = some yd) : (y, yd) ∈ cal := by
  unfold lookupY at h
  cases hf : cal.find? (fun p => p.1 == y) with
  | none => rw [hf] at h; cases h
  | some p =>
    rw [hf] at h
    obtain ⟨hmem, hkey⟩ := find?_key_some hf
    cases p
    simp only [Option.map_some'] at h
    cases h
    cases hkey
    exact hmem

theorem lookupY_none {cal : CalDict} {y : Int}
    (h : lookupY cal y = none) : ∀ yd : YDict, (y, yd) ∉ cal := by
  unfold lookupY at h
  cases hf : cal.find? (fun p => p.1 == y) with
  | none => exact find?_key_none hf
  | some p => rw [hf] at h; cases h

theorem lookupY_of_mem {cal : CalDict} {y : Int} {yd : YDict}
    (hpw : (yearKeys cal).Pairwise (· < ·)) (h : (y, yd) ∈ cal) :
    lookupY cal y = some yd := by
  unfold lookupY
  rw [find?_key_of_mem hpw h]
  rfl

theorem lookupM_mem {yd : YDict} {m : Nat} {ds : List Nat}
    (h : lookupM yd m = some ds) : (m, ds) ∈ yd := by
  unfold lookupM at h
  cases hf : yd.find? (fun p => p.1 == m) with
  | none => rw [hf] at h; cases h
  | some p =>
    rw [hf] at h
    obtain ⟨hmem, hkey⟩ := find?_key_some hf
    cases p
    simp only [Option.map_some'] at h
    cases h
    cases hkey
    exact hmem

theorem lookupM_none {yd : YDict} {m : Nat}
    (h : lookupM yd m = none) : ∀ ds : List Nat, (m, ds) ∉ yd := by
  unfold lookupM at h
  cases hf : yd.find? (fun p => p.1 == m) with
  | none => exact find?_key_none hf
  | some p => rw [hf] at h; cases h

theorem lookupM_of_mem {yd : YDict} {m : Nat} {ds : List Nat}
    (hpw : (yd.map Prod.fst).Pairwise (· < ·)) (h : (m, ds) ∈ yd) :
    lookupM yd m = some ds := by
  unfold lookupM
  rw [find?_key_of_mem hpw h]
  rfl

/-! Membership in the flattened date list. -/

theorem mem_flattenY {y : Int} {yd : YDict} {t : TDate} :
    t ∈ flattenY y yd ↔ t.y = y ∧ ∃ q ∈ yd, t.m = q.1 ∧ t.d ∈ q.2 := by
  induction yd with
  | nil => simp [flattenY]
  | cons q rest ih =>
    cases q with
    | mk m ds =>
      simp only [flattenY, List.mem_append, List.mem_map, ih, List.mem_cons]
      constructor
      · rintro (⟨d, hd, rfl⟩ | ⟨hy, q, hq, hm, hdq⟩)
        · exact ⟨rfl, (m, ds), Or.inl rfl, rfl, hd⟩
        · exact ⟨hy, q, Or.inr hq, hm, hdq⟩
      · rintro ⟨hy, q, (rfl | hq), hm, hdq⟩
        · left
          refine ⟨t.d, hdq, ?_⟩
          cases t
          simp_all
        · right
          exact ⟨hy, q, hq, hm, hdq⟩

theorem mem_flatten {cal : CalDict} {t : TDate} :
    t ∈ flatten cal ↔ ∃ p ∈ cal, t.y = p.1 ∧ ∃ q ∈ p.2, t.m = q.1 ∧ t.d ∈ q.2 := by
  induction cal with
  | nil => simp [flatten]
  | cons p rest ih =>
    cases p with
    | mk y yd =>
      simp only [flatten, List.mem_append, mem_flattenY, ih, List.mem_cons]
      constructor
      · rintro (⟨hy, q, hq, hm, hd⟩ | ⟨p, hp, rest'⟩)
        · exact ⟨(y, yd), Or.inl rfl, hy, q, hq, hm, hd⟩
        · exact ⟨p, Or.inr hp, rest'⟩
      · rintro ⟨p, (rfl | hp), hy, hrest⟩
        · exact Or.inl ⟨hy, hrest⟩
        · exact Or.inr ⟨p, hp, hy, hrest⟩

theorem mem_flatten_of_lookups {cal : CalDict} {y : Int} {m d : Nat}
    {yd : YDict} {ds : List Nat} (hy : lookupY cal y = some yd)
    (hm : lookupM yd m = some ds) (hd : d ∈ ds) :
    (⟨y, m, d⟩ : TDate) ∈ flatten cal :=
  mem_flatten.mpr ⟨(y, yd), lookupY_mem hy, rfl, (m, ds), lookupM_mem hm, rfl, hd⟩

theorem lookups_of_mem_flatten {cal : CalDict} {t : TDate}
    (hw : WFcal cal) (ht : t ∈ flatten cal) :
    ∃ yd ds, lookupY cal t.y = some yd ∧ lookupM yd t.m = some ds ∧ t.d ∈ ds := by
  obtain ⟨p, hp, hy, q, hq, hm, hd⟩ := mem_flatten.mp ht
  obtain ⟨-, hpw, hyears⟩ := hw
  obtain ⟨-, hmpw, -⟩ := hyears p hp
  cases p with
  | mk y' yd =>
    cases q with
    | mk m' ds =>
      subst hy hm
      exact ⟨yd, ds, lookupY_of_mem hpw hp, lookupM_of_mem hmpw hq, hd⟩

theorem containsB_iff_mem {cal : CalDict} {t : TDate} (hw : WFcal cal) :
    containsB cal t = true ↔ t ∈ flatten cal := by
  constructor
  · intro h
    unfold containsB at h
    cases hy : lookupY cal t.y with
    | none => simp [hy] at h
    | some yd =>
      simp only [hy] at h
      cases hm : lookupM yd t.m with
      | none => simp [hm] at h
      | some ds =>
        simp only [hm] at h
        have hd : t.d ∈ ds := by simpa using h
        have := mem_flatten_of_lookups hy hm hd
        simpa using this
  · intro h
    obtain ⟨yd, ds, hy, hm, hd⟩ := lookups_of_mem_flatten hw h
    unfold containsB
    simp only [hy, hm]
    simpa using hd

/-- Every flattened date has Gregorian month and day-of-month bounds. -/
theorem mem_flatten_bounds {cal : CalDict} {t : TDate}
    (hw : WFcal cal) (ht : t ∈ flatten cal) :
    1 ≤ t.m ∧ t.m ≤ 12 ∧ 1 ≤ t.d ∧ t.d ≤ 31 := by
  obtain ⟨p, hp, hy, q, hq, hm, hd⟩ := mem_flatten.mp ht
  obtain ⟨-, -, hyears⟩ := hw
  obtain ⟨-, -, hmonths⟩ := hyears p hp
  obtain ⟨-, -, hm1, hm12, hdays⟩ := hmonths q hq
  obtain ⟨hd1, hd31⟩ := hdays t.d hd
  exact ⟨hm ▸ hm1, hm ▸ hm12, hd1, hd31⟩

/-- Every flattened date's year is one of the calendar's year keys. -/
theorem mem_flatten_year {cal : CalDict} {t : TDate} (ht : t ∈ flatten cal) :
    t.y ∈ yearKeys cal := by
  obtain ⟨p, hp, hy, -⟩ := mem_flatten.mp ht
  exact hy ▸ List.mem_map.mpr ⟨p, hp, rfl⟩

/-! Bridges between pyMin?/pyMax? and the fuel bounds. -/

theorem mem_le_pyMaxD {cal : CalDict} {y : Int} (h : y ∈ yearKeys cal) :
    y ≤ pyMaxD cal := by
  unfold pyMaxD
  cases hm : pyMax? (yearKeys cal) with
  | none => rw [pyMax?_eq_none hm] at h; cases h
  | some M => simpa using (pyMax?_spec hm).2 y h

theorem pyMinD_le_mem {cal : CalDict} {y : Int} (h : y ∈ yearKeys cal) :
    pyMinD cal ≤ y := by
  unfold pyMinD
  cases hm : pyMin? (yearKeys cal) with
  | none => rw [pyMin?_eq_none hm] at h; cases h
  | some M => simpa using (pyMin?_spec hm).2 y h

theorem pyMaxD_eq {cal : CalDict} {M : Int} (h : pyMax? (yearKeys cal) = some M) :
    pyMaxD cal = M := by
  unfold pyMaxD
  rw [h]
  rfl

theorem pyMinD_eq {cal : CalDict} {M : Int} (h : pyMin? (yearKeys cal) = some M) :
    pyMinD cal = M := by
  unfold pyMinD
  rw [h]
  rfl

/-! Helpers about sorted day lists. -/

theorem pairwise_le_getLast {l : List Nat} (hp : l.Pairwise (· < ·)) (hne : l ≠ [])
    {x : Nat} (hx : x ∈ l) : x ≤ l.getLast hne := by
  induction l with
  | nil => exact absurd rfl hne
  | cons a t ih =>
    rw [List.pairwise_cons] at hp
    cases t with
    | nil =>
      have : x = a := by simpa using hx
      simp [this, List.getLast]
    | cons b t2 =>
      have hne2 : b :: t2 ≠ [] := List.cons_ne_nil b t2
      rw [List.getLast_cons hne2]
      rcases List.mem_cons.mp hx with rfl | hx2
      · exact le_of_lt (hp.1 _ (List.getLast_mem hne2))
      · exact ih hp.2 hne2 hx2

theorem getLast?_spec {l : List Nat} {dl : Nat} (hp : l.Pairwise (· < ·))
    (h : l.getLast? = some dl) : dl ∈ l ∧ ∀ x ∈ l, x ≤ dl := by
  have hne : l ≠ [] := by
    intro hl
    subst hl
    cases h
  rw [List.getLast?_eq_getLast_of_ne_nil hne] at h
  have hdl : dl = l.getLast hne := by simpa using h.symm
  subst hdl
  exact ⟨List.getLast_mem hne, fun x hx => pairwise_le_getLast hp hne hx⟩

theorem head?_spec {l : List Nat} {dh : Nat} (hp : l.Pairwise (· < ·))
    (h : l.head? = some dh) : dh ∈ l ∧ ∀ x ∈ l, dh ≤ x := by
  cases l with
  | nil => cases h
  | cons a t =>
    have : a = dh := by simpa using h
    subst this
    rw [List.pairwise_cons] at hp
    refine ⟨List.mem_cons_self _ _, ?_⟩
    intro x hx
    rcases List.mem_cons.mp hx with rfl | hx2
    · exact le_refl _
    · exact le_of_lt (hp.1 x hx2)

theorem find?_min_sorted {l : List Nat} (hp : l.Pairwise (· < ·)) {d a : Nat}
    (h : l.find? (fun x => decide (d ≤ x)) = some a) :
    a ∈ l ∧ d ≤ a ∧ ∀ u ∈ l, d ≤ u → a ≤ u := by
  induction l with
  | nil => cases h
  | cons x t ih =>
    rw [List.pairwise_cons] at hp
    rw [List.find?_cons] at h
    by_cases hdx : d ≤ x
    · simp only [decide_eq_true hdx] at h
      have hax : a = x := by simpa using h.symm
      subst hax
      refine ⟨List.mem_cons_self _ _, hdx, ?_⟩
      intro u hu hdu
      rcases List.mem_cons.mp hu with rfl | hu2
      · exact le_refl _
      · exact le_of_lt (hp.1 u hu2)
    · simp only [decide_eq_false hdx] at h
      obtain ⟨ha, hda, hmin⟩ := ih hp.2 h
      refine ⟨List.mem_cons_of_mem _ ha, hda, ?_⟩
      intro u hu hdu
      rcases List.mem_cons.mp hu with rfl | hu2
      · exact absurd hdu hdx
      · exact hmin u hu2 hdu

theorem find?_max_desc {l : List Nat} (hp : l.Pairwise (· > ·)) {d a : Nat}
    (h : l.find? (fun x => decide (x ≤ d)) = some a) :
    a ∈ l ∧ a ≤ d ∧ ∀ u ∈ l, u ≤ d → u ≤ a := by
  induction l with
  | nil => cases h
  | cons x t ih =>
    rw [List.pairwise_cons] at hp
    rw [List.find?_cons] at h
    by_cases hxd : x ≤ d
    · simp only [decide_eq_true hxd] at h
      have hax : a = x := by simpa using h.symm
      subst hax
      refine ⟨List.mem_cons_self _ _, hxd, ?_⟩
      intro u hu hud
      rcases List.mem_cons.mp hu with rfl | hu2
      · exact le_refl _
      · exact le_of_lt (hp.1 u hu2)
    · simp only [decide_eq_false hxd] at h
      obtain ⟨ha, hda, hmax⟩ := ih hp.2 h
      refine ⟨List.mem_cons_of_mem _ ha, hda, ?_⟩
      intro u hu hud
      rcases List.mem_cons.mp hu with rfl | hu2
      · exact absurd hud hxd
      · exact hmax u hu2 hud

theorem rev_find?_max_sorted {l : List Nat} (hp : l.Pairwise (· < ·)) {d a : Nat}
    (h : l.reverse.find? (fun x => decide (x ≤ d)) = some a) :
    a ∈ l ∧ a ≤ d ∧ ∀ u ∈ l, u ≤ d → u ≤ a := by
  have hrev : l.reverse.Pairwise (· > ·) := by
    rw [List.pairwise_reverse]
    exact hp
  obtain ⟨ha, had, hmax⟩ := find?_max_desc hrev h
  exact ⟨List.mem_reverse.mp ha, had,
    fun u hu hud => hmax u (List.mem_reverse.mpr hu) hud⟩

/-- The per-month facts of a well-formed calendar at a successful lookup. -/
theorem wf_month_facts {cal : CalDict} (hw : WFcal cal) {y : Int} {yd : YDict}
    {m : Nat} {ds : List Nat} (hy : lookupY cal y = some yd)
    (hm : lookupM yd m = some ds) :
    ds ≠ [] ∧ ds.Pairwise (· < ·) ∧ 1 ≤ m ∧ m ≤ 12 ∧ ∀ d ∈ ds, 1 ≤ d ∧ d ≤ 31 :=
  (hw.2.2 _ (lookupY_mem hy)).2.2 _ (lookupM_mem hm)

/-! Totality of the nearest-date recursions for every input triple. -/

theorem afterF_total {cal : CalDict} (hw : WFcal cal) :
    ∀ fuel (y : Int) (m d : Nat), fuelA cal y m ≤ fuel →
      NearOk cal (get_nearest_date_afterF fuel cal y m d) := by
  intro fuel
  induction fuel with
  | zero =>
    intro y m d hf
    exfalso
    unfold fuelA at hf
    omega
  | succ n ih =>
    intro y m d hf
    unfold get_nearest_date_afterF
    split
    case _ ydict hy =>
      have hymax : y ≤ pyMaxD cal :=
        mem_le_pyMaxD (List.mem_map.mpr ⟨_, lookupY_mem hy, rfl⟩)
      split
      case _ mlist hm =>
        obtain ⟨hne, hpw, hm1, hm12, hdays⟩ := wf_month_facts hw hy hm
        split
        case isTrue hc =>
          exact mem_flatten_of_lookups hy hm (by simpa using hc)
        case isFalse hc =>
          split
          case _ heq =>
            exact absurd (List.getLast?_eq_getLast_of_ne_nil hne) (by simp [heq])
          case _ dl heq =>
            obtain ⟨hdlm, hdlmax⟩ := getLast?_spec hpw heq
            split
            case isTrue hdle =>
              split
              case _ dd hfind =>
                exact mem_flatten_of_lookups hy hm (List.mem_of_find?_eq_some hfind)
              case _ hfind =>
                have := List.find?_eq_none.mp hfind dl hdlm
                simp only [decide_eq_true_eq] at this
                exact absurd hdle this
            case isFalse hdle =>
              split
              case isTrue h12 =>
                apply ih
                unfold fuelA at hf ⊢
                omega
              case isFalse h12 =>
                apply ih
                unfold fuelA at hf ⊢
                omega
      case _ hm =>
        split
        case isTrue h12 =>
          apply ih
          unfold fuelA at hf ⊢
          omega
        case isFalse h12 =>
          apply ih
          unfold fuelA at hf ⊢
          omega
    case _ hy =>
      split
      case _ heq =>
        exact absurd (List.map_eq_nil_iff.mp (pyMax?_eq_none heq)) hw.1
      case _ maxy heq =>
        have hmax : pyMaxD cal = maxy := pyMaxD_eq heq
        split
        case isTrue hlt =>
          apply ih
          unfold fuelA at hf ⊢
          omega
        case isFalse hlt =>
          rfl

theorem beforeF_total {cal : CalDict} (hw : WFcal cal) :
    ∀ fuel (y : Int) (m d : Nat), fuelB cal y m ≤ fuel →
      NearOk cal (get_nearest_date_beforeF fuel cal y m d) := by
  intro fuel
  induction fuel with
  | zero =>
    intro y m d hf
    exfalso
    unfold fuelB at hf
    omega
  | succ n ih =>
    intro y m d hf
    unfold get_nearest_date_beforeF
    split
    case _ ydict hy =>
      have hymin : pyMinD cal ≤ y :=
        pyMinD_le_mem (List.mem_map.mpr ⟨_, lookupY_mem hy, rfl⟩)
      split
      case _ mlist hm =>
        obtain ⟨hne, hpw, hm1, hm12, hdays⟩ := wf_month_facts hw hy hm
        split
        case isTrue hc =>
          exact mem_flatten_of_lookups hy hm (by simpa using hc)
        case isFalse hc =>
          split
          case _ heq =>
            exfalso
            cases mlist with
            | nil => exact hne rfl
            | cons a t => cases heq
          case _ dh heq =>
            obtain ⟨hdhm, hdhmin⟩ := head?_spec hpw heq
            split
            case isTrue hdge =>
              split
              case _ dd hfind =>
                have hdd := rev_find?_max_sorted hpw hfind
                exact mem_flatten_of_lookups hy hm hdd.1
              case _ hfind =>
                have := List.find?_eq_none.mp hfind dh (List.mem_reverse.mpr hdhm)
                simp only [decide_eq_true_eq] at this
                exact absurd hdge this
            case isFalse hdge =>
              split
              case isTrue h1 =>
                apply ih
                unfold fuelB at hf ⊢
                omega
              case isFalse h1 =>
                apply ih
                unfold fuelB at hf ⊢
                omega
      case _ hm =>
        split
        case isTrue h1 =>
          apply ih
          unfold fuelB at hf ⊢
          omega
        case isFalse h1 =>
          apply ih
          unfold fuelB at hf ⊢
          omega
    case _ hy =>
      split
      case _ heq =>
        exact absurd (List.map_eq_nil_iff.mp (pyMin?_eq_none heq)) hw.1
      case _ miny heq =>
        have hmin : pyMinD cal = miny := pyMinD_eq heq
        split
        case isTrue hlt =>
          apply ih
          unfold fuelB at hf ⊢
          omega
        case isFalse hlt =>
          rfl

/-- Totality of get_nearest_date_after at the wrapper fuel. -/
theorem after_total {cal : CalDict} (hw : WFcal cal) (y : Int) (m d : Nat) :
    NearOk cal (get_nearest_date_after cal y m d) :=
  afterF_total hw _ y m d (le_refl _)

/-- Totality of get_nearest_date_before at the wrapper fuel. -/
theorem before_total {cal : CalDict} (hw : WFcal cal) (y : Int) (m d : Nat) :
    NearOk cal (get_nearest_date_before cal y m d) :=
  beforeF_total hw _ y m d (le_refl _)

/-! The characterization proofs for the nearest-date lookups. -/

theorem AfterSpec_mono {cal : CalDict} {e e2 : Int} {r : Except Err TDate}
    (hee : e ≤ e2) (hup : ∀ u ∈ flatten cal, e ≤ tdenc u → e2 ≤ tdenc u)
    (h : AfterSpec cal e2 r) : AfterSpec cal e r := by
  cases r with
  | ok t =>
    obtain ⟨hm, het, hmin⟩ := h
    exact ⟨hm, le_trans hee het, fun u hu hE => hmin u hu (hup u hu hE)⟩
  | error e3 =>
    intro u hu
    by_contra hcon
    push_neg at hcon
    exact absurd (h u hu) (not_lt.mpr (hup u hu hcon))

theorem BeforeSpec_mono {cal : CalDict} {e e2 : Int} {r : Except Err TDate}
    (hee : e2 ≤ e) (hdn : ∀ u ∈ flatten cal, tdenc u ≤ e → tdenc u ≤ e2)
    (h : BeforeSpec cal e2 r) : BeforeSpec cal e r := by
  cases r with
  | ok t =>
    obtain ⟨hm, het, hmax⟩ := h
    exact ⟨hm, le_trans het hee, fun u hu hE => hmax u hu (hdn u hu hE)⟩
  | error e3 =>
    intro u hu
    by_contra hcon
    push_neg at hcon
    exact absurd (h u hu) (not_lt.mpr (hdn u hu hcon))

/-- A calendar member whose year and month match a successful lookup has
its day in that month's list. -/
theorem mem_month_day {cal : CalDict} (hw : WFcal cal) {u : TDate}
    (hu : u ∈ flatten cal) {ydict : YDict} {mlist : List Nat}
    (hy : lookupY cal u.y = some ydict) (hm : lookupM ydict u.m = some mlist) :
    u.d ∈ mlist := by
  obtain ⟨yd2, ds2, hy2, hm2, hd2⟩ := lookups_of_mem_flatten hw hu
  rw [hy] at hy2
  injection hy2 with h3
  subst h3
  rw [hm] at hm2
  injection hm2 with h4
  subst h4
  exact hd2

/-- No calendar member has a year whose lookup fails. -/
theorem no_mem_of_lookupY_none {cal : CalDict} (hw : WFcal cal) {u : TDate}
    (hu : u ∈ flatten cal) (hy : lookupY cal u.y = none) : False := by
  obtain ⟨yd2, _, hy2, _, _⟩ := lookups_of_mem_flatten hw hu
  rw [hy] at hy2
  cases hy2

/-- No calendar member sits in a month whose lookup fails. -/
theorem no_mem_of_lookupM_none {cal : CalDict} (hw : WFcal cal) {u : TDate}
    (hu : u ∈ flatten cal) {ydict : YDict}
    (hy : lookupY cal u.y = some ydict) (hm : lookupM ydict u.m = none) : False := by
  obtain ⟨yd2, ds2, hy2, hm2, _⟩ := lookups_of_mem_flatten hw hu
  rw [hy] at hy2
  injection hy2 with h3
  subst h3
  rw [hm] at hm2
  cases hm2

theorem afterF_char {cal : CalDict} (hw : WFcal cal) :
    ∀ fuel (y : Int) (m d : Nat), fuelA cal y m ≤ fuel → m ≤ 99 → d ≤ 99 →
      AfterSpec cal (y * 10000 + (m : Int) * 100 + (d : Int))
        (get_nearest_date_afterF fuel cal y m d) := by
  intro fuel
  induction fuel with
  | zero =>
    intro y m d hf _ _
    exfalso
    unfold fuelA at hf
    omega
  | succ n ih =>
    intro y m d hf hm99 hd99
    unfold get_nearest_date_afterF
    split
    case _ ydict hy =>
      have hymax : y ≤ pyMaxD cal :=
        mem_le_pyMaxD (List.mem_map.mpr ⟨_, lookupY_mem hy, rfl⟩)
      split
      case _ mlist hml =>
        obtain ⟨hne, hpw, hmo1, hmo12, hdays⟩ := wf_month_facts hw hy hml
        split
        case isTrue hc =>
          have hdm : d ∈ mlist := by simpa using hc
          refine ⟨mem_flatten_of_lookups hy hml hdm, le_of_eq rfl, ?_⟩
          intro u hu hE
          exact hE
        case isFalse hc =>
          split
          case _ heq =>
            exact absurd (List.getLast?_eq_getLast_of_ne_nil hne) (by simp [heq])
          case _ dl heq =>
            obtain ⟨hdlm, hdlmax⟩ := getLast?_spec hpw heq
            have hdl31 : dl ≤ 31 := (hdays dl hdlm).2
            split
            case isTrue hdle =>
              split
              case _ dd hfind =>
                obtain ⟨hddm, hddge, hddmin⟩ := find?_min_sorted hpw hfind
                have hdd31 : dd ≤ 31 := (hdays dd hddm).2
                refine ⟨mem_flatten_of_lookups hy hml hddm, ?_, ?_⟩
                · simp only [tdenc]
                  omega
                · intro u hu hE
                  have hb := mem_flatten_bounds hw hu
                  by_cases huy : u.y = y
                  · by_cases hum : u.m = m
                    · have hud : u.d ∈ mlist :=
                        mem_month_day hw hu (by rw [huy]; exact hy)
                          (by rw [hum]; exact hml)
                      have hdu : d ≤ u.d := by
                        simp only [tdenc] at hE
                        omega
                      have h2 := hddmin _ hud hdu
                      simp only [tdenc]
                      omega
                    · simp only [tdenc] at hE ⊢
                      omega
                  · simp only [tdenc] at hE ⊢
                    omega
              case _ hfind =>
                have := List.find?_eq_none.mp hfind dl hdlm
                simp only [decide_eq_true_eq] at this
                exact absurd hdle this
            case isFalse hdle =>
              have hnomem : ∀ u ∈ flatten cal, u.y = y → u.m = m → u.d ≤ dl :=
                fun u hu h1 h2 =>
                  hdlmax _ (mem_month_day hw hu (by rw [h1]; exact hy)
                    (by rw [h2]; exact hml))
              split
              case isTrue h12 =>
                refine AfterSpec_mono (by omega) ?_
                  (ih (y + 1) 1 1 (by unfold fuelA at hf ⊢; omega)
                    (by omega) (by omega))
                intro u hu hE
                have hb := mem_flatten_bounds hw hu
                by_cases huy : u.y = y
                · by_cases hum : u.m = m
                  · have := hnomem u hu huy hum
                    simp only [tdenc] at hE ⊢
                    omega
                  · simp only [tdenc] at hE ⊢
                    omega
                · simp only [tdenc] at hE ⊢
                  omega
              case isFalse h12 =>
                refine AfterSpec_mono (by omega) ?_
                  (ih y (m + 1) 1 (by unfold fuelA at hf ⊢; omega)
                    (by omega) (by omega))
                intro u hu hE
                have hb := mem_flatten_bounds hw hu
                by_cases huy : u.y = y
                · by_cases hum : u.m = m
                  · have := hnomem u hu huy hum
                    simp only [tdenc] at hE ⊢
                    omega
                  · simp only [tdenc] at hE ⊢
                    omega
                · simp only [tdenc] at hE ⊢
                  omega
      case _ hml =>
        have hnom : ∀ u ∈ flatten cal, u.y = y → u.m ≠ m := by
          intro u hu h1 h2
          exact no_mem_of_lookupM_none hw hu (by rw [h1]; exact hy)
            (by rw [h2]; exact hml)
        split
        case isTrue h12 =>
          refine AfterSpec_mono (by omega) ?_
            (ih (y + 1) 1 1 (by unfold fuelA at hf ⊢; omega) (by omega) (by omega))
          intro u hu hE
          have hb := mem_flatten_bounds hw hu
          by_cases huy : u.y = y
          · have := hnom u hu huy
            simp only [tdenc] at hE ⊢
            omega
          · simp only [tdenc] at hE ⊢
            omega
        case isFalse h12 =>
          refine AfterSpec_mono (by omega) ?_
            (ih y (m + 1) 1 (by unfold fuelA at hf ⊢; omega) (by omega) (by omega))
          intro u hu hE
          have hb := mem_flatten_bounds hw hu
          by_cases huy : u.y = y
          · have := hnom u hu huy
            simp only [tdenc] at hE ⊢
            omega
          · simp only [tdenc] at hE ⊢
            omega
    case _ hy =>
      have hnoy : ∀ u ∈ flatten cal, u.y ≠ y := by
        intro u hu h1
        exact no_mem_of_lookupY_none hw hu (by rw [h1]; exact hy)
      split
      case _ heq =>
        exact absurd (List.map_eq_nil_iff.mp (pyMax?_eq_none heq)) hw.1
      case _ maxy heq =>
        have hmaxd : pyMaxD cal = maxy := pyMaxD_eq heq
        split
        case isTrue hlt =>
          refine AfterSpec_mono (by omega) ?_
            (ih (y + 1) 1 1 (by unfold fuelA at hf ⊢; omega) (by omega) (by omega))
          intro u hu hE
          have hb := mem_flatten_bounds hw hu
          have := hnoy u hu
          simp only [tdenc] at hE ⊢
          omega
        case isFalse hlt =>
          intro u hu
          have humax : u.y ≤ pyMaxD cal := mem_le_pyMaxD (mem_flatten_year hu)
          have := hnoy u hu
          have hb := mem_flatten_bounds hw hu
          simp only [tdenc]
          omega

theorem beforeF_char {cal : CalDict} (hw : WFcal cal) :
    ∀ fuel (y : Int) (m d : Nat), fuelB cal y m ≤ fuel → m ≤ 99 → d ≤ 99 →
      BeforeSpec cal (y * 10000 + (m : Int) * 100 + (d : Int))
        (get_nearest_date_beforeF fuel cal y m d) := by
  intro fuel
  induction fuel with
  | zero =>
    intro y m d hf _ _
    exfalso
    unfold fuelB at hf
    omega
  | succ n ih =>
    intro y m d hf hm99 hd99
    unfold get_nearest_date_beforeF
    split
    case _ ydict hy =>
      have hymin : pyMinD cal ≤ y :=
        pyMinD_le_mem (List.mem_map.mpr ⟨_, lookupY_mem hy, rfl⟩)
      split
      case _ mlist hml =>
        obtain ⟨hne, hpw, hmo1, hmo12, hdays⟩ := wf_month_facts hw hy hml
        split
        case isTrue hc =>
          have hdm : d ∈ mlist := by simpa using hc
          refine ⟨mem_flatten_of_lookups hy hml hdm, le_of_eq rfl, ?_⟩
          intro u hu hE
          exact hE
        case isFalse hc =>
          split
          case _ heq =>
            exfalso
            cases mlist with
            | nil => exact hne rfl
            | cons a t => cases heq
          case _ dh heq =>
            obtain ⟨hdhm, hdhmin⟩ := head?_spec hpw heq
            have hdh1 : 1 ≤ dh := (hdays dh hdhm).1
            split
            case isTrue hdge =>
              split
              case _ dd hfind =>
                obtain ⟨hddm, hddle, hddmax⟩ := rev_find?_max_sorted hpw hfind
                have hdd1 : 1 ≤ dd := (hdays dd hddm).1
                have hdd31 : dd ≤ 31 := (hdays dd hddm).2
                refine ⟨mem_flatten_of_lookups hy hml hddm, ?_, ?_⟩
                · simp only [tdenc]
                  omega
                · intro u hu hE
                  have hb := mem_flatten_bounds hw hu
                  by_cases huy : u.y = y
                  · by_cases hum : u.m = m
                    · have hud : u.d ∈ mlist :=
                        mem_month_day hw hu (by rw [huy]; exact hy)
                          (by rw [hum]; exact hml)
                      have hdu : u.d ≤ d := by
                        simp only [tdenc] at hE
                        omega
                      have h2 := hddmax _ hud hdu
                      simp only [tdenc]
                      omega
                    · simp only [tdenc] at hE ⊢
                      omega
                  · simp only [tdenc] at hE ⊢
                    omega
              case _ hfind =>
                have := List.find?_eq_none.mp hfind dh (List.mem_reverse.mpr hdhm)
                simp only [decide_eq_true_eq] at this
                exact absurd hdge this
            case isFalse hdge =>
              have hnomem : ∀ u ∈ flatten cal, u.y = y → u.m = m → dh ≤ u.d :=
                fun u hu h1 h2 =>
                  hdhmin _ (mem_month_day hw hu (by rw [h1]; exact hy)
                    (by rw [h2]; exact hml))
              split
              case isTrue h1 =>
                refine BeforeSpec_mono (by omega) ?_
                  (ih (y - 1) 12 31 (by unfold fuelB at hf ⊢; omega)
                    (by omega) (by omega))
                intro u hu hE
                have hb := mem_flatten_bounds hw hu
                by_cases huy : u.y = y
                · by_cases hum : u.m = m
                  · have := hnomem u hu huy hum
                    simp only [tdenc] at hE ⊢
                    omega
                  · simp only [tdenc] at hE ⊢
                    omega
                · simp only [tdenc] at hE ⊢
                  omega
              case isFalse h1 =>
                refine BeforeSpec_mono (by omega) ?_
                  (ih y (m - 1) 31 (by unfold fuelB at hf ⊢; omega)
                    (by omega) (by omega))
                intro u hu hE
                have hb := mem_flatten_bounds hw hu
                by_cases huy : u.y = y
                · by_cases hum : u.m = m
                  · have := hnomem u hu huy hum
                    simp only [tdenc] at hE ⊢
                    omega
                  · simp only [tdenc] at hE ⊢
                    omega
                · simp only [tdenc] at hE ⊢
                  omega
      case _ hml =>
        have hnom : ∀ u ∈ flatten cal, u.y = y → u.m ≠ m := by
          intro u hu h1 h2
          exact no_mem_of_lookupM_none hw hu (by rw [h1]; exact hy)
            (by rw [h2]; exact hml)
        split
        case isTrue h1 =>
          refine BeforeSpec_mono (by omega) ?_
            (ih (y - 1) 12 31 (by unfold fuelB at hf ⊢; omega) (by omega) (by omega))
          intro u hu hE
          have hb := mem_flatten_bounds hw hu
          by_cases huy : u.y = y
          · have := hnom u hu huy
            simp only [tdenc] at hE ⊢
            omega
          · simp only [tdenc] at hE ⊢
            omega
        case isFalse h1 =>
          refine BeforeSpec_mono (by omega) ?_
            (ih y (m - 1) 31 (by unfold fuelB at hf ⊢; omega) (by omega) (by omega))
          intro u hu hE
          have hb := mem_flatten_bounds hw hu
          by_cases huy : u.y = y
          · have := hnom u hu huy
            simp only [tdenc] at hE ⊢
            omega
          · simp only [tdenc] at hE ⊢
            omega
    case _ hy =>
      have hnoy : ∀ u ∈ flatten cal, u.y ≠ y := by
        intro u hu h1
        exact no_mem_of_lookupY_none hw hu (by rw [h1]; exact hy)
      split
      case _ heq =>
        exact absurd (List.map_eq_nil_iff.mp (pyMin?_eq_none heq)) hw.1
      case _ miny heq =>
        have hmind : pyMinD cal = miny := pyMinD_eq heq
        split
        case isTrue hlt =>
          refine BeforeSpec_mono (by omega) ?_
            (ih (y - 1) 12 31 (by unfold fuelB at hf ⊢; omega) (by omega) (by omega))
          intro u hu hE
          have hb := mem_flatten_bounds hw hu
          have := hnoy u hu
          simp only [tdenc] at hE ⊢
          omega
        case isFalse hlt =>
          intro u hu
          have humin : pyMinD cal ≤ u.y := pyMinD_le_mem (mem_flatten_year hu)
          have := hnoy u hu
          have hb := mem_flatten_bounds hw hu
          simp only [tdenc]
          omega

/-- Wrapper form of the characterization of get_nearest_date_after. -/
theorem after_char {cal : CalDict} (hw : WFcal cal) (y : Int) {m d : Nat}
    (hm99 : m ≤ 99) (hd99 : d ≤ 99) :
    AfterSpec cal (y * 10000 + (m : Int) * 100 + (d : Int))
      (get_nearest_date_after cal y m d) :=
  afterF_char hw _ y m d (le_refl _) hm99 hd99

/-- Wrapper form of the characterization of get_nearest_date_before. -/
theorem before_char {cal : CalDict} (hw : WFcal cal) (y : Int) {m d : Nat}
    (hm99 : m ≤ 99) (hd99 : d ≤ 99) :
    BeforeSpec cal (y * 10000 + (m : Int) * 100 + (d : Int))
      (get_nearest_date_before cal y m d) :=
  beforeF_char hw _ y m d (le_refl _) hm99 hd99

/-! The flattened calendar is strictly sorted by encoding. -/

theorem flattenY_append (y : Int) (d1 d2 : YDict) :
    flattenY y (d1 ++ d2) = flattenY y d1 ++ flattenY y d2 := by
  induction d1 with
  | nil => simp [flattenY]
  | cons q rest ih =>
    cases q
    simp [flattenY, ih]

theorem flatten_append (c1 c2 : CalDict) :
    flatten (c1 ++ c2) = flatten c1 ++ flatten c2 := by
  induction c1 with
  | nil => simp [flatten]
  | cons p rest ih =>
    cases p
    simp [flatten, ih]

theorem pairwise_flattenY {y : Int} {yd : YDict}
    (hk : (yd.map Prod.fst).Pairwise (· < ·))
    (hin : ∀ q ∈ yd, q.2.Pairwise (· < ·) ∧ ∀ d ∈ q.2, d ≤ 31) :
    (flattenY y yd).Pairwise (fun a b => tdenc a < tdenc b) := by
  induction yd with
  | nil => simp [flattenY]
  | cons q rest ih =>
    cases q with
    | mk m ds =>
      simp only [List.map_cons, List.pairwise_cons] at hk
      have hq := hin (m, ds) (List.mem_cons_self _ _)
      rw [show flattenY y ((m, ds) :: rest) = ds.map (fun d => ⟨y, m, d⟩) ++ flattenY y rest
        from rfl]
      rw [List.pairwise_append]
      refine ⟨?_, ih hk.2 (fun q hq2 => hin q (List.mem_cons_of_mem _ hq2)), ?_⟩
      · rw [List.pairwise_map]
        refine hq.1.imp ?_
        intro a b hab
        simp only [tdenc]
        omega
      · intro a ha b hb
        obtain ⟨da, hda, rfl⟩ := List.mem_map.mp ha
        obtain ⟨hby, qb, hqb, hbm, hbd⟩ := mem_flattenY.mp hb
        have hmlt : m < b.m := hbm ▸ hk.1 _ (List.mem_map.mpr ⟨qb, hqb, rfl⟩)
        have hda31 : da ≤ 31 := hq.2 _ hda
        simp only [tdenc, hby]
        omega

theorem pairwise_flatten_aux : ∀ cal : CalDict, (yearKeys cal).Pairwise (· < ·) →
    (∀ p ∈ cal, p.2 ≠ [] ∧ (p.2.map Prod.fst).Pairwise (· < ·) ∧
      ∀ q ∈ p.2, q.2 ≠ [] ∧ q.2.Pairwise (· < ·) ∧ 1 ≤ q.1 ∧ q.1 ≤ 12 ∧
        ∀ d ∈ q.2, 1 ≤ d ∧ d ≤ 31) →
    (flatten cal).Pairwise (fun a b => tdenc a < tdenc b) := by
  intro cal
  induction cal with
  | nil => intro _ _; simp [flatten]
  | cons p rest ih =>
    intro hkeys hyears
    cases p with
    | mk y yd =>
      unfold yearKeys at hkeys
      simp only [List.map_cons, List.pairwise_cons] at hkeys
      have hyp := hyears (y, yd) (List.mem_cons_self _ _)
      rw [show flatten ((y, yd) :: rest) = flattenY y yd ++ flatten rest from rfl]
      rw [List.pairwise_append]
      refine ⟨?_, ih hkeys.2 (fun p hp => hyears p (List.mem_cons_of_mem _ hp)), ?_⟩
      · exact pairwise_flattenY hyp.2.1
          (fun q hq => ⟨(hyp.2.2 q hq).2.1, fun d hd => ((hyp.2.2 q hq).2.2.2.2 d hd).2⟩)
      · intro a ha b hb
        obtain ⟨hay, qa, hqa, ham, had⟩ := mem_flattenY.mp ha
        have hbin : b.y ∈ yearKeys rest := mem_flatten_year hb
        have hylt : y < b.y := hkeys.1 _ (by simpa [yearKeys] using hbin)
        have ham12 : qa.1 ≤ 12 := (hyp.2.2 qa hqa).2.2.2.1
        have had31 : a.d ≤ 31 := ((hyp.2.2 qa hqa).2.2.2.2 a.d had).2
        simp only [tdenc, hay]
        omega

theorem pairwise_flatten {cal : CalDict} (hw : WFcal cal) :
    (flatten cal).Pairwise (fun a b => tdenc a < tdenc b) :=
  pairwise_flatten_aux cal hw.2.1 hw.2.2

/-- Distinct calendar members have distinct encodings. -/
theorem tdenc_inj_mem {l : List TDate}
    (hp : l.Pairwise (fun a b => tdenc a < tdenc b)) :
    ∀ {a b : TDate}, a ∈ l → b ∈ l → tdenc a = tdenc b → a = b := by
  induction l with
  | nil => intro a b ha; cases ha
  | cons x t ih =>
    rw [List.pairwise_cons] at hp
    intro a b ha hb heq
    rcases List.mem_cons.mp ha with rfl | ha2
    · rcases List.mem_cons.mp hb with rfl | hb2
      · rfl
      · exact absurd heq (ne_of_lt (hp.1 _ hb2))
    · rcases List.mem_cons.mp hb with rfl | hb2
      · exact absurd heq.symm (ne_of_lt (hp.1 _ ha2))
      · exact ih hp.2 ha2 hb2 heq

/-! Decomposition of the flattened calendar around one month. -/

theorem lookupY_split {cal : CalDict} {y : Int} {yd : YDict}
    (h : lookupY cal y = some yd) :
    ∃ A B, cal = A ++ (y, yd) :: B ∧ ∀ q ∈ A, q.1 ≠ y := by
  unfold lookupY at h
  cases hf : cal.find? (fun p => p.1 == y) with
  | none => rw [hf] at h; cases h
  | some p =>
    rw [hf] at h
    rw [List.find?_eq_some] at hf
    obtain ⟨hp, as, bs, hsplit, hall⟩ := hf
    cases p with
    | mk y2 yd2 =>
      have hy2 : y2 = y := by simpa using hp
      have hyd2 : yd2 = yd := by simpa using h
      subst hy2 hyd2
      refine ⟨as, bs, hsplit, fun q hq => ?_⟩
      have := hall q hq
      simpa using this

theorem lookupM_split {yd : YDict} {m : Nat} {ds : List Nat}
    (h : lookupM yd m = some ds) :
    ∃ C D, yd = C ++ (m, ds) :: D ∧ ∀ q ∈ C, q.1 ≠ m := by
  unfold lookupM at h
  cases hf : yd.find? (fun p => p.1 == m) with
  | none => rw [hf] at h; cases h
  | some p =>
    rw [hf] at h
    rw [List.find?_eq_some] at hf
    obtain ⟨hp, as, bs, hsplit, hall⟩ := hf
    cases p with
    | mk m2 ds2 =>
      have hm2 : m2 = m := by simpa using hp
      have hds2 : ds2 = ds := by simpa using h
      subst hm2 hds2
      refine ⟨as, bs, hsplit, fun q hq => ?_⟩
      have := hall q hq
      simpa using this

theorem month_split {cal : CalDict} (hw : WFcal cal) {y : Int} {ydict : YDict}
    {m : Nat} {mlist : List Nat}
    (hy : lookupY cal y = some ydict) (hm : lookupM ydict m = some mlist) :
    ∃ P S, flatten cal = P ++ mlist.map (fun d => (⟨y, m, d⟩ : TDate)) ++ S ∧
      (∀ u ∈ P, tdenc u ≤ y * 10000 + (m : Int) * 100 - 69) ∧
      (∀ u ∈ S, y * 10000 + (m : Int) * 100 + 101 ≤ tdenc u) := by
  obtain ⟨A, B, hAB, -⟩ := lookupY_split hy
  obtain ⟨C, D, hCD, -⟩ := lookupM_split hm
  have hm1 : 1 ≤ m := (wf_month_facts hw hy hm).2.2.1
  have hm12 : m ≤ 12 := (wf_month_facts hw hy hm).2.2.2.1
  have hEQ : flatten cal =
      (flatten A ++ flattenY y C) ++ mlist.map (fun d => (⟨y, m, d⟩ : TDate)) ++
        (flattenY y D ++ flatten B) := by
    rw [hAB, flatten_append,
      show flatten ((y, ydict) :: B) = flattenY y ydict ++ flatten B from rfl,
      hCD, flattenY_append,
      show flattenY y ((m, mlist) :: D) =
        mlist.map (fun d => (⟨y, m, d⟩ : TDate)) ++ flattenY y D from rfl]
    simp [List.append_assoc]
  have hkeys := hw.2.1
  rw [hAB] at hkeys
  unfold yearKeys at hkeys
  rw [List.map_append, List.map_cons, List.pairwise_append] at hkeys
  have hkeysm := (hw.2.2 _ (lookupY_mem hy)).2.1
  rw [hCD, List.map_append, List.map_cons, List.pairwise_append] at hkeysm
  refine ⟨flatten A ++ flattenY y C, flattenY y D ++ flatten B, hEQ, ?_, ?_⟩
  · intro u hu
    have humem : u ∈ flatten cal := by
      rw [hEQ]
      simp only [List.mem_append]
      rcases List.mem_append.mp hu with h1 | h1
      · exact Or.inl (Or.inl (Or.inl h1))
      · exact Or.inl (Or.inl (Or.inr h1))
    have hb := mem_flatten_bounds hw humem
    rcases List.mem_append.mp hu with h1 | h1
    · have hyin : u.y ∈ yearKeys A := mem_flatten_year h1
      have hylt : u.y < y := hkeys.2.2 _ (by simpa [yearKeys] using hyin) _
        (List.mem_cons_self _ _)
      simp only [tdenc]
      omega
    · obtain ⟨huy, q, hq, hum, hud⟩ := mem_flattenY.mp h1
      have hmlt : u.m < m :=
        hum ▸ hkeysm.2.2 _ (List.mem_map.mpr ⟨q, hq, rfl⟩) _ (List.mem_cons_self _ _)
      simp only [tdenc, huy]
      omega
  · intro u hu
    have humem : u ∈ flatten cal := by
      rw [hEQ]
      simp only [List.mem_append]
      rcases List.mem_append.mp hu with h1 | h1
      · exact Or.inr (Or.inl h1)
      · exact Or.inr (Or.inr h1)
    have hb := mem_flatten_bounds hw humem
    rcases List.mem_append.mp hu with h1 | h1
    · obtain ⟨huy, q, hq, hum, hud⟩ := mem_flattenY.mp h1
      have hmgt : m < u.m := by
        have := List.pairwise_cons.mp hkeysm.2.1
        exact hum ▸ this.1 _ (List.mem_map.mpr ⟨q, hq, rfl⟩)
      simp only [tdenc, huy]
      omega
    · have hyin : u.y ∈ yearKeys B := mem_flatten_year h1
      have hygt : y < u.y := by
        have := List.pairwise_cons.mp hkeys.2.1
        exact this.1 _ (by simpa [yearKeys] using hyin)
      simp only [tdenc]
      omega

/-! Index bookkeeping inside strictly sorted lists. -/

theorem getElem?_split {α : Type} {l : List α} {i : Nat} {z : α}
    (h : l[i]? = some z) : l = l.take i ++ z :: l.drop (i + 1) := by
  obtain ⟨hi, hz⟩ := List.getElem?_eq_some_iff.mp h
  conv_lhs => rw [← List.take_append_drop i l]
  rw [List.drop_eq_getElem_cons hi, hz]

theorem sorted_split_length {l : List TDate}
    (hp : l.Pairwise (fun a b => tdenc a < tdenc b))
    {A B : List TDate} {z : TDate} (hsplit : l = A ++ z :: B) :
    A.length = (l.filter (fun u => decide (tdenc u < tdenc z))).length := by
  subst hsplit
  rw [List.pairwise_append] at hp
  have hA : ∀ u ∈ A, tdenc u < tdenc z := fun u hu =>
    hp.2.2 u hu z (List.mem_cons_self _ _)
  have hzB := List.pairwise_cons.mp hp.2.1
  rw [List.filter_append]
  have h1 : A.filter (fun u => decide (tdenc u < tdenc z)) = A :=
    List.filter_eq_self.mpr (fun u hu => by simpa using hA u hu)
  have h2 : (z :: B).filter (fun u => decide (tdenc u < tdenc z)) = [] := by
    rw [List.filter_eq_nil_iff]
    intro u hu
    rcases List.mem_cons.mp hu with rfl | hu2
    · simp
    · simpa using le_of_lt (hzB.1 u hu2)
  rw [h1, h2]
  simp

/-- The index of a member in a strictly sorted list is determined by its
encoding, so any two split decompositions at the same element agree on the
prefix length. -/
theorem sorted_index_eq {l : List TDate}
    (hp : l.Pairwise (fun a b => tdenc a < tdenc b))
    {i : Nat} {z : TDate} (h : l[i]? = some z)
    {A B : List TDate} (hsplit : l = A ++ z :: B) : i = A.length := by
  have h1 := sorted_split_length hp (getElem?_split h)
  have h2 := sorted_split_length hp hsplit
  have hi : i < l.length := (List.getElem?_eq_some_iff.mp h).1
  rw [List.length_take] at h1
  omega

/-- First occurrence index returned by Python's list.index via findIdx?. -/
theorem findIdx?_beq_mem {l : List Nat} {d : Nat} (hd : d ∈ l) :
    ∃ idx, l.findIdx? (fun x => x == d) = some idx ∧ idx < l.length ∧
      l[idx]? = some d := by
  have hex : ∃ x, x ∈ l ∧ (x == d) = true := ⟨d, hd, by simp⟩
  have h := List.findIdx?_eq_some_of_exists hex
  obtain ⟨hlt, hp, -⟩ := List.findIdx?_eq_some_iff_getElem.mp h
  refine ⟨l.findIdx (fun x => x == d), h, hlt, ?_⟩
  rw [List.getElem?_eq_some_iff]
  exact ⟨hlt, by simpa using hp⟩

/-! Characterization of TradingDate.__add__ / __sub__: they move by
positions in the flattened, encoding-sorted member list. -/

theorem addNF_spec {cal : CalDict} (hw : WFcal cal) :
    ∀ fuel v (t : TDate) (i : Nat), v < fuel → (flatten cal)[i]? = some t →
      addNF fuel cal t v =
        match (flatten cal)[i + v]? with
        | some z => .ok z
        | none => .error .outOfCalendar := by
  intro fuel
  induction fuel with
  | zero =>
    intro v t i hv _
    exact absurd hv (Nat.not_lt_zero v)
  | succ n ih =>
    intro v t i hv hti
    have htmem : t ∈ flatten cal := List.mem_iff_getElem?.mpr ⟨i, hti⟩
    obtain ⟨ydict, mlist, hy, hml, htd⟩ := lookups_of_mem_flatten hw htmem
    obtain ⟨idx, hidx, hidxlt, hidxget⟩ := findIdx?_beq_mem htd
    obtain ⟨P, S, hEQ, hPbd, hSbd⟩ := month_split hw hy hml
    have hm1 : 1 ≤ t.m := (wf_month_facts hw hy hml).2.2.1
    have hm12 : t.m ≤ 12 := (wf_month_facts hw hy hml).2.2.2.1
    have hdbd := (wf_month_facts hw hy hml).2.2.2.2
    have hpw := pairwise_flatten hw
    have hsplit2 : flatten cal =
        (P ++ (mlist.take idx).map (fun d => (⟨t.y, t.m, d⟩ : TDate))) ++ t ::
          ((mlist.drop (idx + 1)).map (fun d => (⟨t.y, t.m, d⟩ : TDate)) ++ S) := by
      rw [hEQ]
      conv_lhs => rw [getElem?_split hidxget]
      simp [List.map_append, List.append_assoc]
    have hlen : i = P.length + idx := by
      have h1 := sorted_index_eq hpw hti hsplit2
      rw [List.length_append, List.length_map, List.length_take] at h1
      omega
    unfold addNF
    simp only [hy, hml, hidx]
    split
    case isTrue hlt =>
      have hgety : (flatten cal)[i + v]? = some ⟨t.y, t.m, mlist[idx + v]⟩ := by
        rw [hEQ, List.getElem?_append_left
          (by simp only [List.length_append, List.length_map]; omega),
          List.getElem?_append_right (by omega)]
        have h2 : i + v - P.length = idx + v := by omega
        rw [h2, List.getElem?_map, List.getElem?_eq_getElem hlt]
        rfl
      rw [hgety]
      rfl
    case isFalse hlt =>
      have hchar := @after_char cal hw t.y (t.m + 1) 1 (by omega) (by omega)
      cases hres : get_nearest_date_after cal t.y (t.m + 1) 1 with
      | error e =>
        have htot := after_total hw t.y (t.m + 1) 1
        rw [hres] at htot hchar
        have heooc : e = Err.outOfCalendar := htot
        have hS : S = [] := by
          cases hScons : S with
          | nil => rfl
          | cons s S2 =>
            exfalso
            have hsmem : s ∈ flatten cal := by
              rw [hEQ, hScons]
              simp
            have h1 := hchar s hsmem
            have h2 := hSbd s (by rw [hScons]; exact List.mem_cons_self _ _)
            simp only [tdenc] at h1 h2
            omega
        have hnone : (flatten cal)[i + v]? = none := by
          apply List.getElem?_eq_none
          rw [hEQ, hS]
          simp only [List.append_nil, List.length_append, List.length_map]
          omega
        subst heooc
        rw [hnone]
      | ok t2 =>
        rw [hres] at hchar
        obtain ⟨ht2mem, ht2ge, ht2min⟩ := hchar
        have ht2S : t2 ∈ S := by
          rw [hEQ] at ht2mem
          rcases List.mem_append.mp ht2mem with h1 | h1
          · rcases List.mem_append.mp h1 with h2 | h2
            · exfalso
              have := hPbd t2 h2
              simp only [tdenc] at this ht2ge
              omega
            · exfalso
              obtain ⟨dd, hdd, rfl⟩ := List.mem_map.mp h2
              have := (hdbd dd hdd).2
              simp only [tdenc] at ht2ge
              omega
          · exact h1
        cases hScons : S with
        | nil =>
          exact absurd (hScons ▸ ht2S) (List.not_mem_nil t2)
        | cons s S2 =>
          have hsmem : s ∈ flatten cal := by
            rw [hEQ, hScons]
            simp
          have hsge := hSbd s (by rw [hScons]; exact List.mem_cons_self _ _)
          have ht2s : t2 = s := by
            have h1 : tdenc t2 ≤ tdenc s := by
              apply ht2min s hsmem
              simp only [tdenc] at hsge ⊢
              omega
            rcases List.mem_cons.mp (hScons ▸ ht2S) with rfl | h2
            · rfl
            · exfalso
              have hpS : S.Pairwise (fun a b => tdenc a < tdenc b) := by
                rw [hEQ] at hpw
                exact (List.pairwise_append.mp hpw).2.1
              rw [hScons] at hpS
              have := (List.pairwise_cons.mp hpS).1 t2 h2
              omega
          subst ht2s
          have hspos : (flatten cal)[P.length + mlist.length]? = some t2 := by
            rw [hEQ, hScons, List.getElem?_append_right
              (by simp only [List.length_append, List.length_map]; omega)]
            simp [List.length_append, List.length_map]
          show addNF n cal t2 (v - (mlist.length - idx)) =
            match (flatten cal)[i + v]? with
            | some z => Except.ok z
            | none => Except.error Err.outOfCalendar
          rw [ih (v - (mlist.length - idx)) t2 (P.length + mlist.length)
            (by omega) hspos]
          have h3 : P.length + mlist.length + (v - (mlist.length - idx)) = i + v := by
            omega
          rw [h3]

theorem subNF_spec {cal : CalDict} (hw : WFcal cal) :
    ∀ fuel v (t : TDate) (i : Nat), v < fuel → (flatten cal)[i]? = some t →
      (v ≤ i → subNF fuel cal t v =
        match (flatten cal)[i - v]? with
        | some z => .ok z
        | none => .error .outOfCalendar) ∧
      (i < v → subNF fuel cal t v = .error .outOfCalendar) := by
  intro fuel
  induction fuel with
  | zero =>
    intro v t i hv _
    exact absurd hv (Nat.not_lt_zero v)
  | succ n ih =>
    intro v t i hv hti
    have htmem : t ∈ flatten cal := List.mem_iff_getElem?.mpr ⟨i, hti⟩
    obtain ⟨ydict, mlist, hy, hml, htd⟩ := lookups_of_mem_flatten hw htmem
    obtain ⟨idx, hidx, hidxlt, hidxget⟩ := findIdx?_beq_mem htd
    obtain ⟨P, S, hEQ, hPbd, hSbd⟩ := month_split hw hy hml
    have hm1 : 1 ≤ t.m := (wf_month_facts hw hy hml).2.2.1
    have hm12 : t.m ≤ 12 := (wf_month_facts hw hy hml).2.2.2.1
    have hdbd := (wf_month_facts hw hy hml).2.2.2.2
    have hpw := pairwise_flatten hw
    have hsplit2 : flatten cal =
        (P ++ (mlist.take idx).map (fun d => (⟨t.y, t.m, d⟩ : TDate))) ++ t ::
          ((mlist.drop (idx + 1)).map (fun d => (⟨t.y, t.m, d⟩ : TDate)) ++ S) := by
      rw [hEQ]
      conv_lhs => rw [getElem?_split hidxget]
      simp [List.map_append, List.append_assoc]
    have hlen : i = P.length + idx := by
      have h1 := sorted_index_eq hpw hti hsplit2
      rw [List.length_append, List.length_map, List.length_take] at h1
      omega
    unfold subNF
    simp only [hy, hml, hidx]
    split
    case isTrue hvle =>
      have hltlen : idx - v < mlist.length := by omega
      rw [List.getElem?_eq_getElem hltlen]
      constructor
      · intro hvi
        have hgety : (flatten cal)[i - v]? = some ⟨t.y, t.m, mlist[idx - v]⟩ := by
          rw [hEQ, List.getElem?_append_left
            (by simp only [List.length_append, List.length_map]; omega),
            List.getElem?_append_right (by omega)]
          have h2 : i - v - P.length = idx - v := by omega
          rw [h2, List.getElem?_map, List.getElem?_eq_getElem hltlen]
          rfl
        rw [hgety]
      · intro hvi
        omega
    case isFalse hvgt =>
      have hchar := @before_char cal hw t.y (t.m - 1) 31 (by omega) (by omega)
      cases hres : get_nearest_date_before cal t.y (t.m - 1) 31 with
      | error e =>
        have htot := before_total hw t.y (t.m - 1) 31
        rw [hres] at htot hchar
        have heooc : e = Err.outOfCalendar := htot
        have hP : P = [] := by
          cases hPcons : P with
          | nil => rfl
          | cons p P2 =>
            exfalso
            have hpmem : p ∈ flatten cal := by
              rw [hEQ, hPcons]
              simp
            have h1 := hchar p hpmem
            have h2 := hPbd p (by rw [hPcons]; exact List.mem_cons_self _ _)
            simp only [tdenc] at h1 h2
            omega
        subst heooc
        have hP0 : P.length = 0 := by rw [hP]; rfl
        constructor
        · intro hvi
          exfalso
          omega
        · intro hvi
          rfl
      | ok t2 =>
        rw [hres] at hchar
        obtain ⟨ht2mem, ht2le, ht2max⟩ := hchar
        have ht2P : t2 ∈ P := by
          rw [hEQ] at ht2mem
          rcases List.mem_append.mp ht2mem with h1 | h1
          · rcases List.mem_append.mp h1 with h2 | h2
            · exact h2
            · exfalso
              obtain ⟨dd, hdd, rfl⟩ := List.mem_map.mp h2
              have := (hdbd dd hdd).1
              simp only [tdenc] at ht2le
              omega
          · exfalso
            have := hSbd t2 h1
            simp only [tdenc] at this ht2le
            omega
        have hPne : P ≠ [] := List.ne_nil_of_mem ht2P
        have hPsplit : P.dropLast ++ [P.getLast hPne] = P :=
          List.dropLast_append_getLast hPne
        have hwmem : P.getLast hPne ∈ flatten cal := by
          rw [hEQ]
          exact List.mem_append.mpr
            (Or.inl (List.mem_append.mpr (Or.inl (List.getLast_mem hPne))))
        have hpP : P.Pairwise (fun a b => tdenc a < tdenc b) := by
          rw [hEQ] at hpw
          exact (List.pairwise_append.mp (List.pairwise_append.mp hpw).1).1
        have ht2w : t2 = P.getLast hPne := by
          have h1 : tdenc (P.getLast hPne) ≤ tdenc t2 := by
            apply ht2max _ hwmem
            have := hPbd _ (List.getLast_mem hPne)
            simp only [tdenc] at this ⊢
            omega
          rcases List.mem_append.mp (hPsplit ▸ ht2P) with h2 | h2
          · exfalso
            have hcross := (List.pairwise_append.mp (hPsplit ▸ hpP)).2.2
            have := hcross t2 h2 (P.getLast hPne) (List.mem_cons_self _ _)
            omega
          · simpa using h2
        subst ht2w
        have hwpos : (flatten cal)[P.length - 1]? = some (P.getLast hPne) := by
          have hP1 : 1 ≤ P.length := by
            cases hP : P with
            | nil => exact absurd hP hPne
            | cons a b => simp
          rw [hEQ, List.getElem?_append_left
            (by simp only [List.length_append, List.length_map]; omega),
            List.getElem?_append_left (by omega)]
          rw [← List.getLast?_eq_getElem?]
          exact List.getLast?_eq_getLast_of_ne_nil hPne
        obtain ⟨iha, ihb⟩ := ih (v - (idx + 1)) (P.getLast hPne) (P.length - 1)
          (by omega) hwpos
        have hP1 : 1 ≤ P.length := by
          cases hP : P with
          | nil => exact absurd hP hPne
          | cons a b => simp
        constructor
        · intro hvi
          show subNF n cal (P.getLast hPne) (v - (idx + 1)) =
            match (flatten cal)[i - v]? with
            | some z => Except.ok z
            | none => Except.error Err.outOfCalendar
          rw [iha (by omega)]
          have h4 : P.length - 1 - (v - (idx + 1)) = i - v := by omega
          rw [h4]
        · intro hvi
          show subNF n cal (P.getLast hPne) (v - (idx + 1)) =
            Except.error Err.outOfCalendar
          exact ihb (by omega)

/-- TradingDate.__add__ with a nonnegative count moves forward by that many
positions in the flattened member list, or raises OutOfCalendarError. -/
theorem addN_spec {cal : CalDict} (hw : WFcal cal) {t : TDate} {i : Nat}
    (hti : (flatten cal)[i]? = some t) (v : Nat) :
    addN cal t v =
      match (flatten cal)[i + v]? with
      | some z => .ok z
      | none => .error .outOfCalendar :=
  addNF_spec hw (v + 1) v t i (by omega) hti

/-- TradingDate.__sub__ with a nonnegative count moves backward by that many
positions in the flattened member list, or raises OutOfCalendarError. -/
theorem subN_spec {cal : CalDict} (hw : WFcal cal) {t : TDate} {i : Nat}
    (hti : (flatten cal)[i]? = some t) (v : Nat) :
    (v ≤ i → subN cal t v =
      match (flatten cal)[i - v]? with
      | some z => .ok z
      | none => .error .outOfCalendar) ∧
    (i < v → subN cal t v = .error .outOfCalendar) :=
  subNF_spec hw (v + 1) v t i (by omega) hti

/-! Reachability by iterated TradingDate.next. -/

theorem reach_next {cal : CalDict} (hw : WFcal cal) :
    ∀ k (a b : TDate), a ∈ flatten cal → b ∈ flatten cal →
      tdenc a < tdenc b → (tdenc b - tdenc a).toNat ≤ k →
      ∃ n, nextN cal n a = .ok b := by
  intro k
  induction k with
  | zero =>
    intro a b ha hb hab hk
    exfalso
    omega
  | succ k ih =>
    intro a b ha hb hab hk
    have hbnd := mem_flatten_bounds hw ha
    have hchar := @after_char cal hw a.y a.m (a.d + 1)
      (by omega) (by omega)
    cases hres : next cal a with
    | error e =>
      exfalso
      unfold next at hres
      rw [hres] at hchar
      have := hchar b hb
      simp only [tdenc] at this hab
      omega
    | ok t2 =>
      unfold next at hres
      rw [hres] at hchar
      obtain ⟨ht2m, ht2ge, ht2min⟩ := hchar
      have ht2le : tdenc t2 ≤ tdenc b := by
        apply ht2min b hb
        simp only [tdenc] at hab ⊢
        omega
      by_cases heq : t2 = b
      · refine ⟨1, ?_⟩
        unfold nextN
        unfold next
        rw [hres, heq]
        rfl
      · have hlt2 : tdenc t2 < tdenc b :=
          lt_of_le_of_ne ht2le
            (fun hc => heq (tdenc_inj_mem (pairwise_flatten hw) ht2m hb hc))
        have hgt : tdenc a < tdenc t2 := by
          simp only [tdenc] at ht2ge ⊢
          omega
        obtain ⟨n, hn⟩ := ih t2 b ht2m hb hlt2 (by omega)
        refine ⟨n + 1, ?_⟩
        unfold nextN
        unfold next
        rw [hres]
        exact hn

/-! The calendar start and end are members. -/

theorem startDate_mem {cal : CalDict} (hw : WFcal cal) :
    ∃ t, startDate cal = .ok t ∧ t ∈ flatten cal := by
  have hne : yearKeys cal ≠ [] := fun h => hw.1 (List.map_eq_nil_iff.mp h)
  cases hmin : pyMin? (yearKeys cal) with
  | none => exact absurd (pyMin?_eq_none hmin) hne
  | some y =>
    obtain ⟨p, hp, hpy⟩ := List.mem_map.mp (pyMin?_spec hmin).1
    have hy : lookupY cal y = some p.2 := by
      apply lookupY_of_mem hw.2.1
      have : p = (y, p.2) := by
        cases p
        simp only at hpy
        rw [hpy]
      rw [← this]
      exact hp
    obtain ⟨hne2, hkpw, hmonths⟩ := hw.2.2 p hp
    cases hmin2 : pyMin? (p.2.map Prod.fst) with
    | none =>
      exact absurd (List.map_eq_nil_iff.mp (pyMin?_eq_none hmin2)) hne2
    | some m =>
      obtain ⟨q, hq, hqm⟩ := List.mem_map.mp (pyMin?_spec hmin2).1
      have hm : lookupM p.2 m = some q.2 := by
        apply lookupM_of_mem hkpw
        have : q = (m, q.2) := by
          cases q
          simp only at hqm
          rw [hqm]
        rw [← this]
        exact hq
      have hqne := (hmonths q hq).1
      cases hd : q.2.head? with
      | none =>
        exfalso
        cases hq2 : q.2 with
        | nil => exact hqne hq2
        | cons a t => rw [hq2] at hd; cases hd
      | some d =>
        refine ⟨⟨y, m, d⟩, ?_, ?_⟩
        · simp only [startDate, hmin, hy, hmin2, hm, hd]
        · apply mem_flatten_of_lookups hy hm
          exact (head?_spec (hmonths q hq).2.1 hd).1

theorem endDate_mem {cal : CalDict} (hw : WFcal cal) :
    ∃ t, endDate cal = .ok t ∧ t ∈ flatten cal := by
  have hne : yearKeys cal ≠ [] := fun h => hw.1 (List.map_eq_nil_iff.mp h)
  cases hmax : pyMax? (yearKeys cal) with
  | none => exact absurd (pyMax?_eq_none hmax) hne
  | some y =>
    obtain ⟨p, hp, hpy⟩ := List.mem_map.mp (pyMax?_spec hmax).1
    have hy : lookupY cal y = some p.2 := by
      apply lookupY_of_mem hw.2.1
      have : p = (y, p.2) := by
        cases p
        simp only at hpy
        rw [hpy]
      rw [← this]
      exact hp
    obtain ⟨hne2, hkpw, hmonths⟩ := hw.2.2 p hp
    cases hmax2 : pyMax? (p.2.map Prod.fst) with
    | none =>
      exact absurd (List.map_eq_nil_iff.mp (pyMax?_eq_none hmax2)) hne2
    | some m =>
      obtain ⟨q, hq, hqm⟩ := List.mem_map.mp (pyMax?_spec hmax2).1
      have hm : lookupM p.2 m = some q.2 := by
        apply lookupM_of_mem hkpw
        have : q = (m, q.2) := by
          cases q
          simp only at hqm
          rw [hqm]
        rw [← this]
        exact hq
      have hqne := (hmonths q hq).1
      cases hd : q.2.getLast? with
      | none =>
        exfalso
        exact absurd (List.getLast?_eq_getLast_of_ne_nil hqne) (by simp [hd])
      | some d =>
        refine ⟨⟨y, m, d⟩, ?_, ?_⟩
        · simp only [endDate, hmax, hy, hmax2, hm, hd]
        · apply mem_flatten_of_lookups hy hm
          exact (getLast?_spec (hmonths q hq).2.1 hd).1

/-! Inserting one day into a nested calendar dict adds exactly that
triple to the flattened view. -/

theorem insertMonth_flatten (y : Int) (m d : Nat) :
    ∀ yd : YDict,
      (flattenY y (insertMonth yd m d)).length = (flattenY y yd).length + 1 ∧
      ∀ u, u ∈ flattenY y (insertMonth yd m d) ↔
        u ∈ flattenY y yd ∨ u = ⟨y, m, d⟩ := by
  intro yd
  induction yd with
  | nil =>
    constructor
    · rfl
    · intro u
      simp [insertMonth, flattenY]
  | cons q rest ih =>
    cases q with
    | mk m2 ds =>
      unfold insertMonth
      by_cases hm2 : m2 = m
      · rw [if_pos (by simp [hm2])]
        rw [show flattenY y ((m2, ds ++ [d]) :: rest) =
          (ds ++ [d]).map (fun x => ⟨y, m2, x⟩) ++ flattenY y rest from rfl]
        rw [show flattenY y ((m2, ds) :: rest) =
          ds.map (fun x => ⟨y, m2, x⟩) ++ flattenY y rest from rfl]
        constructor
        · simp only [List.length_append, List.length_map, List.map_append]
          simp
          omega
        · intro u
          subst hm2
          simp only [List.map_append, List.map_cons, List.map_nil, List.mem_append,
            List.mem_singleton]
          tauto
      · rw [if_neg (by simp [hm2])]
        rw [show flattenY y ((m2, ds) :: insertMonth rest m d) =
          ds.map (fun x => ⟨y, m2, x⟩) ++ flattenY y (insertMonth rest m d) from rfl]
        rw [show flattenY y ((m2, ds) :: rest) =
          ds.map (fun x => ⟨y, m2, x⟩) ++ flattenY y rest from rfl]
        constructor
        · simp only [List.length_append, ih.1]
          omega
        · intro u
          simp only [List.mem_append, ih.2 u]
          tauto

theorem insertDay_flatten (t : TDate) :
    ∀ c : CalDict,
      (flatten (insertDay c t)).length = (flatten c).length + 1 ∧
      ∀ u, u ∈ flatten (insertDay c t) ↔ u ∈ flatten c ∨ u = t := by
  intro c
  induction c with
  | nil =>
    constructor
    · rfl
    · intro u
      simp [insertDay, flatten, flattenY]
  | cons p rest ih =>
    cases p with
    | mk y2 yd =>
      unfold insertDay
      by_cases hy2 : y2 = t.y
      · rw [if_pos (by simp [hy2])]
        rw [show flatten ((y2, insertMonth yd t.m t.d) :: rest) =
          flattenY y2 (insertMonth yd t.m t.d) ++ flatten rest from rfl]
        rw [show flatten ((y2, yd) :: rest) = flattenY y2 yd ++ flatten rest from rfl]
        have hins := insertMonth_flatten y2 t.m t.d yd
        have ht : (⟨y2, t.m, t.d⟩ : TDate) = t := by rw [hy2]
        constructor
        · simp only [List.length_append, hins.1]
          omega
        · intro u
          simp only [List.mem_append, hins.2 u, ht]
          tauto
      · rw [if_neg (by simp [hy2])]
        rw [show flatten ((y2, yd) :: insertDay rest t) =
          flattenY y2 yd ++ flatten (insertDay rest t) from rfl]
        rw [show flatten ((y2, yd) :: rest) = flattenY y2 yd ++ flatten rest from rfl]
        constructor
        · simp only [List.length_append, ih.1]
          omega
        · intro u
          simp only [List.mem_append, ih.2 u]
          tauto

/-- The filtered fold of TradingDate.week: each produced entry comes from
the candidate window and is a member of the calendar, and at most one
entry is added per candidate. -/
theorem week_fold_spec (cal : CalDict) :
    ∀ (l : List TDate) (c : CalDict),
      (flatten (l.foldl (fun c u => if containsB cal u then insertDay c u else c) c)).length ≤
        (flatten c).length + l.length ∧
      ∀ u, u ∈ flatten (l.foldl (fun c u => if containsB cal u then insertDay c u else c) c) →
        u ∈ flatten c ∨ (u ∈ l ∧ containsB cal u = true) := by
  intro l
  induction l with
  | nil =>
    intro c
    exact ⟨by simp, fun u hu => Or.inl hu⟩
  | cons a rest ih =>
    intro c
    rw [List.foldl_cons]
    by_cases ha : containsB cal a = true
    · rw [if_pos ha]
      obtain ⟨ihlen, ihmem⟩ := ih (insertDay c a)
      have hins := insertDay_flatten a c
      constructor
      · calc _ ≤ (flatten (insertDay c a)).length + rest.length := ihlen
          _ = (flatten c).length + 1 + rest.length := by rw [hins.1]
          _ = (flatten c).length + (a :: rest).length := by simp; omega
      · intro u hu
        rcases ihmem u hu with h1 | h1
        · rcases (hins.2 u).mp h1 with h2 | h2
          · exact Or.inl h2
          · exact Or.inr ⟨by rw [h2]; exact List.mem_cons_self _ _, by rw [h2]; exact ha⟩
        · exact Or.inr ⟨List.mem_cons_of_mem _ h1.1, h1.2⟩
    · rw [if_neg ha]
      obtain ⟨ihlen, ihmem⟩ := ih c
      constructor
      · calc _ ≤ (flatten c).length + rest.length := ihlen
          _ ≤ (flatten c).length + (a :: rest).length := by simp
      · intro u hu
        rcases ihmem u hu with h1 | h1
        · exact Or.inl h1
        · exact Or.inr ⟨List.mem_cons_of_mem _ h1.1, h1.2⟩

/-- Building a caldict from a raw date list yields one flattened entry per
input date. -/
theorem buildCalDict_flatten_length :
    ∀ (dates : List Int) (c : CalDict),
      (flatten (dates.foldl (fun c n => insertDay c (splitDate n)) c)).length =
        (flatten c).length + dates.length := by
  intro dates
  induction dates with
  | nil => intro c; simp
  | cons a rest ih =>
    intro c
    rw [List.foldl_cons, ih, (insertDay_flatten (splitDate a) c).1]
    simp
    omega

theorem buildCalDict_ne_nil {dates : List Int} (h : dates ≠ []) :
    buildCalDict dates ≠ [] := by
  intro hc
  have h1 := buildCalDict_flatten_length dates []
  unfold buildCalDict at hc
  rw [hc] at h1
  simp only [flatten, List.length_nil] at h1
  cases dates with
  | nil => exact h rfl
  | cons a rest => simp at h1

/-! Registry lemmas for the engine cache. -/

theorem find?_map_register (idv : String) (cd : CalDict) :
    ∀ st : EngineState,
      (st.map (fun p => if p.1 == idv then (idv, cd) else p)).find?
          (fun p => p.1 == idv) =
        (st.find? (fun p => p.1 == idv)).map (fun _ => (idv, cd)) := by
  intro st
  induction st with
  | nil => rfl
  | cons q rest ih =>
    rw [List.map_cons]
    by_cases hq : (q.1 == idv) = true
    · rw [if_pos hq, List.find?_cons, List.find?_cons]
      simp only [hq, beq_self_eq_true]
      rfl
    · have hq2 : (q.1 == idv) = false := by simpa using hq
      rw [if_neg hq, List.find?_cons, List.find?_cons]
      simp only [hq2]
      exact ih

theorem get_register_same (st : EngineState) (idv : String) (cd : CalDict) :
    get_calendar (register_calendar st idv cd) idv = .ok cd := by
  unfold register_calendar
  split
  case isTrue hany =>
    unfold get_calendar
    rw [find?_map_register]
    obtain ⟨p, hp, hpid⟩ := List.any_eq_true.mp hany
    cases hf : st.find? (fun p => p.1 == idv) with
    | none =>
      exfalso
      exact absurd hpid (by simpa using List.find?_eq_none.mp hf p hp)
    | some q => rfl
  case isFalse hany =>
    unfold get_calendar
    rw [List.find?_append]
    have hnone : st.find? (fun p => p.1 == idv) = none := by
      rw [List.find?_eq_none]
      intro p hp
      intro hc
      exact hany (List.any_eq_true.mpr ⟨p, hp, hc⟩)
    rw [hnone]
    simp [List.find?]

theorem get_register_other (st : EngineState) (idv k : String) (cd : CalDict)
    (hk : k ≠ idv) :
    get_calendar (register_calendar st idv cd) k = get_calendar st k := by
  unfold register_calendar
  split
  case isTrue hany =>
    unfold get_calendar
    have key : ∀ l : EngineState,
        (l.map (fun p => if p.1 == idv then (idv, cd) else p)).find?
            (fun p => p.1 == k) =
          l.find? (fun p => p.1 == k) := by
      intro l
      induction l with
      | nil => rfl
      | cons q rest ih =>
        rw [List.map_cons, List.find?_cons, List.find?_cons]
        by_cases hq : (q.1 == idv) = true
        · rw [if_pos hq]
          have hqid : q.1 = idv := by simpa using hq
          have h1 : (idv == k) = false := by
            simp only [beq_eq_false_iff_ne, ne_eq]
            exact fun hc => hk hc.symm
          have h2 : (q.1 == k) = false := by rw [hqid]; exact h1
          simp only [h1, h2]
          exact ih
        · rw [if_neg hq]
          cases hqk : (q.1 == k) with
          | true => simp only [hqk]
          | false =>
            simp only [hqk]
            exact ih
    rw [key st]
  case isFalse hany =>
    unfold get_calendar
    rw [List.find?_append]
    have h1 : [(idv, cd)].find? (fun p => p.1 == k) = none := by
      simp only [List.find?]
      have : (idv == k) = false := by
        simp only [beq_eq_false_iff_ne, ne_eq]
        exact fun hc => hk hc.symm
      rw [this]
    rw [h1]
    cases st.find? (fun p => p.1 == k) with
    | none => rfl
    | some q => rfl

/-! Membership preservation of the arithmetic wrappers. -/

theorem addN_mem {cal : CalDict} (hw : WFcal cal) {x : TDate}
    (hx : x ∈ flatten cal) {v : Nat} {z : TDate}
    (h : addN cal x v = .ok z) : z ∈ flatten cal := by
  obtain ⟨i, hi⟩ := List.mem_iff_getElem?.mp hx
  rw [addN_spec hw hi v] at h
  cases hfz : (flatten cal)[i + v]? with
  | none =>
    rw [hfz] at h
    exact absurd h (by simp)
  | some z2 =>
    rw [hfz] at h
    have h2 : (Except.ok z2 : Except Err TDate) = .ok z := h
    injection h2 with h3
    subst h3
    exact List.mem_iff_getElem?.mpr ⟨i + v, hfz⟩

theorem subN_mem {cal : CalDict} (hw : WFcal cal) {x : TDate}
    (hx : x ∈ flatten cal) {v : Nat} {z : TDate}
    (h : subN cal x v = .ok z) : z ∈ flatten cal := by
  obtain ⟨i, hi⟩ := List.mem_iff_getElem?.mp hx
  obtain ⟨hsa, hsb⟩ := subN_spec hw hi v
  by_cases hvi : v ≤ i
  · rw [hsa hvi] at h
    cases hfz : (flatten cal)[i - v]? with
    | none =>
      rw [hfz] at h
      exact absurd h (by simp)
    | some z2 =>
      rw [hfz] at h
      have h2 : (Except.ok z2 : Except Err TDate) = .ok z := h
      injection h2 with h3
      subst h3
      exact List.mem_iff_getElem?.mpr ⟨i - v, hfz⟩
  · rw [hsb (by omega)] at h
    exact absurd h (by simp)

/-! ### The claims -/

/-- Claim C1 (evidence of the code bug): the source's missing="raise"
branch raises NotOnCalendarError unconditionally, before consulting the
calendar, so resolving 20250101 with missing="raise" raises even though
20250101 is a member of the sample calendar. Both wrappers
(src/src/core.py get_trading_date and src/src/tradingdate/core.py date)
have the same unconditional branch, contradicting their docstrings, which
say the policy is used only when the date is not found in the calendar. -/
theorem c1_raise_policy_failing_input :
    containsB sampleCal ⟨2025, 1, 1⟩ = true ∧
    get_trading_date sampleCal 2025 1 1 .raiseErr = .error .notOnCalendar ∧
    dateResolve sampleCal 2025 1 1 .raiseErr = .error .notOnCalendar :=
  ⟨rfl, rfl, rfl⟩

/-- Claim C2: on a well-formed (hence non-empty) calendar, resolving a
pre-split date (y, m, d) with missing="use_next" returns the smallest
calendar member at or after the date and with missing="use_before" the
largest member at or before it (so no calendar date lies strictly between
the date and the result); a member resolves to itself under both policies;
and when no member exists on the requested side, the resolution fails with
OutOfCalendarError. The bounds m, d ≤ 99 hold for every input produced by
split_date, whose month and day fields are two-digit slices. -/
theorem c2_snap_resolution {cal : CalDict} (hw : WFcal cal) (y : Int)
    {m d : Nat} (hm : m ≤ 99) (hd : d ≤ 99) :
    (∀ t, dateResolve cal y m d .use_next = .ok t →
      t ∈ flatten cal ∧ y * 10000 + (m : Int) * 100 + (d : Int) ≤ tdenc t ∧
        ∀ u ∈ flatten cal,
          y * 10000 + (m : Int) * 100 + (d : Int) ≤ tdenc u → tdenc t ≤ tdenc u) ∧
    (∀ e, dateResolve cal y m d .use_next = .error e →
      e = .outOfCalendar ∧
        ∀ u ∈ flatten cal, tdenc u < y * 10000 + (m : Int) * 100 + (d : Int)) ∧
    (∀ t, dateResolve cal y m d .use_before = .ok t →
      t ∈ flatten cal ∧ tdenc t ≤ y * 10000 + (m : Int) * 100 + (d : Int) ∧
        ∀ u ∈ flatten cal,
          tdenc u ≤ y * 10000 + (m : Int) * 100 + (d : Int) → tdenc u ≤ tdenc t) ∧
    (∀ e, dateResolve cal y m d .use_before = .error e →
      e = .outOfCalendar ∧
        ∀ u ∈ flatten cal, y * 10000 + (m : Int) * 100 + (d : Int) < tdenc u) ∧
    (containsB cal ⟨y, m, d⟩ = true →
      dateResolve cal y m d .use_next = .ok ⟨y, m, d⟩ ∧
      dateResolve cal y m d .use_before = .ok ⟨y, m, d⟩) := by
  have hA := after_char hw y hm hd
  have hB := before_char hw y hm hd
  have hTA := after_total hw y m d
  have hTB := before_total hw y m d
  refine ⟨?_, ?_, ?_, ?_, ?_⟩
  · intro t ht
    have ht2 : get_nearest_date_after cal y m d = .ok t := ht
    rw [ht2] at hA
    exact hA
  · intro e he
    have he2 : get_nearest_date_after cal y m d = .error e := he
    rw [he2] at hA hTA
    exact ⟨hTA, hA⟩
  · intro t ht
    have ht2 : get_nearest_date_before cal y m d = .ok t := ht
    rw [ht2] at hB
    exact hB
  · intro e he
    have he2 : get_nearest_date_before cal y m d = .error e := he
    rw [he2] at hB hTB
    exact ⟨hTB, hB⟩
  · intro hc
    have hmem : (⟨y, m, d⟩ : TDate) ∈ flatten cal := (containsB_iff_mem hw).mp hc
    have henc : tdenc ⟨y, m, d⟩ = y * 10000 + (m : Int) * 100 + (d : Int) := rfl
    constructor
    · show get_nearest_date_after cal y m d = .ok ⟨y, m, d⟩
      cases hres : get_nearest_date_after cal y m d with
      | error e =>
        exfalso
        rw [hres] at hA
        have := hA _ hmem
        omega
      | ok t =>
        rw [hres] at hA
        obtain ⟨htm, hge, hmin⟩ := hA
        have h1 : tdenc t ≤ tdenc ⟨y, m, d⟩ := hmin _ hmem (le_of_eq henc.symm)
        have h2 : t = ⟨y, m, d⟩ :=
          tdenc_inj_mem (pairwise_flatten hw) htm hmem (by omega)
        rw [h2]
    · show get_nearest_date_before cal y m d = .ok ⟨y, m, d⟩
      cases hres : get_nearest_date_before cal y m d with
      | error e =>
        exfalso
        rw [hres] at hB
        have := hB _ hmem
        omega
      | ok t =>
        rw [hres] at hB
        obtain ⟨htm, hle, hmax⟩ := hB
        have h1 : tdenc ⟨y, m, d⟩ ≤ tdenc t := hmax _ hmem (le_of_eq henc)
        have h2 : t = ⟨y, m, d⟩ :=
          tdenc_inj_mem (pairwise_flatten hw) htm hmem (by omega)
        rw [h2]

/-- Claim C3: for a TradingDate x on a well-formed calendar and a
nonnegative count n, whenever both operations succeed (stay within the
calendar range), (x + n) - n and (x - n) + n both return x. -/
theorem c3_roundtrip {cal : CalDict} (hw : WFcal cal) {x : TDate}
    (hx : x ∈ flatten cal) {n : Int} (hn : 0 ≤ n) :
    (∀ z w, tdadd cal x n = .ok z → tdsub cal z n = .ok w → w = x) ∧
    (∀ z w, tdsub cal x n = .ok z → tdadd cal z n = .ok w → w = x) := by
  obtain ⟨i, hi⟩ := List.mem_iff_getElem?.mp hx
  have hnn : ¬(n < 0) := not_lt.mpr hn
  constructor
  · intro z w hz hw2
    unfold tdadd at hz
    rw [if_neg hnn] at hz
    rw [addN_spec hw hi n.toNat] at hz
    cases hfz : (flatten cal)[i + n.toNat]? with
    | none =>
      rw [hfz] at hz
      exact absurd hz (by simp)
    | some z2 =>
      rw [hfz] at hz
      have hz2 : (Except.ok z2 : Except Err TDate) = .ok z := hz
      injection hz2 with hz3
      subst hz3
      unfold tdsub at hw2
      rw [if_neg hnn] at hw2
      obtain ⟨hsa, -⟩ := subN_spec hw hfz n.toNat
      rw [hsa (by omega)] at hw2
      have h4 : i + n.toNat - n.toNat = i := by omega
      rw [h4, hi] at hw2
      have hw3 : (Except.ok x : Except Err TDate) = .ok w := hw2
      injection hw3 with hw4
      exact hw4.symm
  · intro z w hz hw2
    unfold tdsub at hz
    rw [if_neg hnn] at hz
    obtain ⟨hsa, hsb⟩ := subN_spec hw hi n.toNat
    by_cases hcase : n.toNat ≤ i
    · rw [hsa hcase] at hz
      cases hfz : (flatten cal)[i - n.toNat]? with
      | none =>
        rw [hfz] at hz
        exact absurd hz (by simp)
      | some z2 =>
        rw [hfz] at hz
        have hz2 : (Except.ok z2 : Except Err TDate) = .ok z := hz
        injection hz2 with hz3
        subst hz3
        unfold tdadd at hw2
        rw [if_neg hnn] at hw2
        rw [addN_spec hw hfz n.toNat] at hw2
        have h4 : i - n.toNat + n.toNat = i := by omega
        rw [h4, hi] at hw2
        have hw3 : (Except.ok x : Except Err TDate) = .ok w := hw2
        injection hw3 with hw4
        exact hw4.symm
    · rw [hsb (by omega)] at hz
      exact absurd hz (by simp)

/-- Claim C4: for members a < b (by yyyymmdd encoding) of a well-formed
calendar, a.next() succeeds and is at most b, and iterating next from a
reaches b after finitely many steps. -/
theorem c4_monotone_reach {cal : CalDict} (hw : WFcal cal) {a b : TDate}
    (ha : a ∈ flatten cal) (hb : b ∈ flatten cal) (hab : tdenc a < tdenc b) :
    (∃ t, next cal a = .ok t ∧ tdenc t ≤ tdenc b) ∧
    (∃ n, nextN cal n a = .ok b) := by
  constructor
  · have hbnd := mem_flatten_bounds hw ha
    have hchar := @after_char cal hw a.y a.m (a.d + 1) (by omega) (by omega)
    cases hres : next cal a with
    | error e =>
      exfalso
      unfold next at hres
      rw [hres] at hchar
      have := hchar b hb
      simp only [tdenc] at this hab
      omega
    | ok t2 =>
      unfold next at hres
      rw [hres] at hchar
      refine ⟨t2, rfl, ?_⟩
      apply hchar.2.2 b hb
      simp only [tdenc] at hab ⊢
      omega
  · exact reach_next hw (tdenc b - tdenc a).toNat a b ha hb hab (le_refl _)

/-- Claim C5: every TradingDate produced by the public operations of a
well-formed calendar (nearest-date snaps, add/subtract, next/last,
calendar start and end, and iteration) has its (year, month, day) triple
in the owning day-set. -/
theorem c5_membership_invariant {cal : CalDict} (hw : WFcal cal) :
    (∀ (y : Int) (m d : Nat) t,
      get_nearest_date_after cal y m d = .ok t → t ∈ flatten cal) ∧
    (∀ (y : Int) (m d : Nat) t,
      get_nearest_date_before cal y m d = .ok t → t ∈ flatten cal) ∧
    (∀ x ∈ flatten cal, ∀ (v : Int) z, tdadd cal x v = .ok z → z ∈ flatten cal) ∧
    (∀ x ∈ flatten cal, ∀ (v : Int) z, tdsub cal x v = .ok z → z ∈ flatten cal) ∧
    (∀ (x t : TDate), next cal x = .ok t → t ∈ flatten cal) ∧
    (∀ (x t : TDate), lastDate cal x = .ok t → t ∈ flatten cal) ∧
    (∀ t, startDate cal = .ok t → t ∈ flatten cal) ∧
    (∀ t, endDate cal = .ok t → t ∈ flatten cal) ∧
    (∀ t ∈ flatten cal, containsB cal t = true) := by
  refine ⟨?_, ?_, ?_, ?_, ?_, ?_, ?_, ?_, ?_⟩
  · intro y m d t h
    have := after_total hw y m d
    rw [h] at this
    exact this
  · intro y m d t h
    have := before_total hw y m d
    rw [h] at this
    exact this
  · intro x hx v z hz
    unfold tdadd at hz
    by_cases hv : v < 0
    · rw [if_pos hv] at hz
      exact subN_mem hw hx hz
    · rw [if_neg hv] at hz
      exact addN_mem hw hx hz
  · intro x hx v z hz
    unfold tdsub at hz
    by_cases hv : v < 0
    · rw [if_pos hv] at hz
      exact addN_mem hw hx hz
    · rw [if_neg hv] at hz
      exact subN_mem hw hx hz
  · intro x t h
    have := after_total hw x.y x.m (x.d + 1)
    have h2 : get_nearest_date_after cal x.y x.m (x.d + 1) = .ok t := h
    rw [h2] at this
    exact this
  · intro x t h
    have := before_total hw x.y x.m (x.d - 1)
    have h2 : get_nearest_date_before cal x.y x.m (x.d - 1) = .ok t := h
    rw [h2] at this
    exact this
  · intro t h
    obtain ⟨t0, h0, hmem⟩ := startDate_mem hw
    rw [h0] at h
    injection h with h2
    rw [← h2]
    exact hmem
  · intro t h
    obtain ⟨t0, h0, hmem⟩ := endDate_mem hw
    rw [h0] at h
    injection h with h2
    rw [← h2]
    exact hmem
  · intro t ht
    exact (containsB_iff_mem hw).mpr ht

/-- Claim C6 counterexample: comparing a whole, unrestricted
TradingCalendar to a raw date does NOT compare via the canonical integer
encoding as the claim states; TradingCalendar.__valur2str raises TypeError
whenever either side is a whole TradingCalendar, so the comparison fails
even for the calendar's own start date 20250101. -/
theorem c6_counterexample :
    calEq sampleWhole (.intv 20250101) = .error .typeError ∧
    ∀ b : Bool, calEq sampleWhole (.intv 20250101) ≠ .ok b := by
  refine ⟨rfl, ?_⟩
  intro b h
  rw [show calEq sampleWhole (.intv 20250101) = .error .typeError from rfl] at h
  cases h

/-- Claim C6 as amended: equality between two whole TradingCalendar
objects holds iff their ids are equal, while comparing a whole calendar to
a raw int, a raw string, a TradingDate, or a calendar view raises
TypeError (TypeMismatch) rather than comparing via the canonical
encoding. -/
theorem c6_amended_whole_calendar_eq :
    (∀ c1 c2 : CalObj, c1.kind = .whole → c2.kind = .whole →
      calEq c1 (.calv c2) = .ok (c1.id == c2.id)) ∧
    (∀ c : CalObj, c.kind = .whole →
      (∀ nv : Int, calEq c (.intv nv) = .error .typeError) ∧
      (∀ sv : String, calEq c (.strv sv) = .error .typeError) ∧
      (∀ tv : TDate, calEq c (.datev tv) = .error .typeError) ∧
      (∀ c2 : CalObj, c2.kind ≠ .whole →
        calEq c (.calv c2) = .error .typeError)) := by
  constructor
  · intro c1 c2 h1 h2
    simp only [calEq]
    rw [if_pos (by simp [h1, h2])]
  · intro c h
    have hck : (c.kind == CKind.whole) = true := by simp [h]
    refine ⟨?_, ?_, ?_, ?_⟩
    · intro nv
      simp only [calEq, valur2str]
      rw [if_pos (by simp [operandIsWholeCal, hck])]
      rfl
    · intro sv
      simp only [calEq, valur2str]
      rw [if_pos (by simp [operandIsWholeCal, hck])]
      rfl
    · intro tv
      simp only [calEq, valur2str]
      rw [if_pos (by simp [operandIsWholeCal, hck])]
      rfl
    · intro c2 h2
      simp only [calEq]
      rw [if_neg (by simp [h2])]
      simp only [valur2str]
      rw [if_pos (by simp [operandIsWholeCal, hck])]
      rfl

/-- Claim C7 (spec-modelled glue): make_calendar validates and registers
the day-set built from the date list under the given id, overwriting any
previous entry of that id, returns the calendar registered under that id,
and leaves every other id's entry unchanged. -/
theorem c7_make_calendar (st : EngineState) (idv : String) (dates : List Int)
    (h : dates ≠ []) :
    (make_calendar st idv dates).2 = .ok ⟨.whole, idv, buildCalDict dates⟩ ∧
    get_calendar (make_calendar st idv dates).1 idv = .ok (buildCalDict dates) ∧
    ∀ k, k ≠ idv → get_calendar (make_calendar st idv dates).1 k =
      get_calendar st k := by
  have hne := buildCalDict_ne_nil h
  have hinit : TradingCalendar_init idv (buildCalDict dates) =
      .ok ⟨.whole, idv, buildCalDict dates⟩ := by
    unfold TradingCalendar_init
    rw [if_neg hne]
  have hst : (make_calendar st idv dates).1 =
      register_calendar st idv (buildCalDict dates) := by
    unfold make_calendar
    rw [hinit]
  refine ⟨?_, ?_, ?_⟩
  · unfold make_calendar
    rw [hinit]
    show (get_calendar (register_calendar st idv (buildCalDict dates)) idv).map _ = _
    rw [get_register_same]
    rfl
  · rw [hst, get_register_same]
  · intro k hk
    rw [hst, get_register_other st idv k _ hk]

/-- Claim C8: registering an empty day list fails with ValueError (the
TradingCalendar constructor's own validation, Python's InvalidArgument
analogue) and leaves the registry untouched, and looking up an id that is
not in the registry raises KeyError. -/
theorem c8_invalid_argument :
    (∀ idv : String, TradingCalendar_init idv [] = .error .valueError) ∧
    (∀ (st : EngineState) (idv : String),
      (make_calendar st idv []).2 = .error .valueError ∧
        (make_calendar st idv []).1 = st) ∧
    (∀ (st : EngineState) (idv : String),
      st.find? (fun p => p.1 == idv) = none →
        get_calendar st idv = .error .keyError) := by
  refine ⟨fun idv => rfl, fun st idv => ⟨rfl, rfl⟩, fun st idv h => ?_⟩
  unfold get_calendar
  rw [h]

/-- Claim C9: a successfully built week view contains at most 7 days,
every day it contains lies inside the computed Monday..Sunday window of
the date, and every day it contains is a member of the owning calendar's
day-set. -/
theorem c9_week_view {cal : CalDict} {t : TDate} {w : CalDict}
    (hok : week cal t = .ok w) :
    (flatten w).length ≤ 7 ∧
    ∀ u ∈ flatten w, u ∈ weekWindow t ∧ containsB cal u = true := by
  unfold week at hok
  by_cases hv : pyDateValid t = true
  · rw [if_pos hv] at hok
    obtain ⟨hlen, hmem⟩ := week_fold_spec cal (weekWindow t) []
    split at hok
    · cases hok
    · injection hok with hok2
      subst hok2
      constructor
      · have h7 : (weekWindow t).length = 7 := by
          rw [weekWindow, List.length_map]
          rfl
        rw [h7] at hlen
        calc (flatten (List.foldl
              (fun c u => if containsB cal u = true then insertDay c u else c)
              [] (weekWindow t))).length ≤ (flatten ([] : CalDict)).length + 7 := hlen
          _ = 7 := rfl
      · intro u hu
        rcases hmem u hu with h1 | h1
        · exact absurd h1 (List.not_mem_nil u)
        · exact h1
  · rw [if_neg hv] at hok
    cases hok

/-- Claim C10: for every input triple, including out-of-range components
such as month 0 or 13 and day 0 or 32 produced internally by next() and
last(), both nearest-date lookups on a well-formed calendar return a
calendar member or fail with OutOfCalendarError and nothing else; the
embedding's fuel bound witnesses that the recursion always terminates
within the calendar's year range. -/
theorem c10_totality {cal : CalDict} (hw : WFcal cal) :
    ∀ (y : Int) (m d : Nat),
      ((∀ t, get_nearest_date_after cal y m d = .ok t → t ∈ flatten cal) ∧
       (∀ e, get_nearest_date_after cal y m d = .error e →
          e = .outOfCalendar)) ∧
      ((∀ t, get_nearest_date_before cal y m d = .ok t → t ∈ flatten cal) ∧
       (∀ e, get_nearest_date_before cal y m d = .error e →
          e = .outOfCalendar)) := by
  intro y m d
  refine ⟨⟨?_, ?_⟩, ⟨?_, ?_⟩⟩
  · intro t h
    have := after_total hw y m d
    rw [h] at this
    exact this
  · intro e h
    have := after_total hw y m d
    rw [h] at this
    exact this
  · intro t h
    have := before_total hw y m d
    rw [h] at this
    exact this
  · intro e h
    have := before_total hw y m d
    rw [h] at this
    exact this

/-- Witness for C2 at the sample calendar and the member date 2025-01-11:
the hypotheses hold and both policies resolve the member to itself. -/
theorem c2_snap_resolution_witness :
    WFcal sampleCal ∧ (1 : Nat) ≤ 99 ∧ (11 : Nat) ≤ 99 ∧
    containsB sampleCal ⟨2025, 1, 11⟩ = true ∧
    (dateResolve sampleCal 2025 1 11 .use_next = .ok ⟨2025, 1, 11⟩ ∧
     dateResolve sampleCal 2025 1 11 .use_before = .ok ⟨2025, 1, 11⟩) :=
  ⟨by decide, by decide, by decide, by decide,
    (@c2_snap_resolution sampleCal (by decide) 2025 1 11 (by decide)
      (by decide)).2.2.2.2 (by decide)⟩

/-- Witness for C3 at the sample calendar, the member 2025-01-11 and the
count 3. -/
theorem c3_roundtrip_witness :
    WFcal sampleCal ∧ (⟨2025, 1, 11⟩ : TDate) ∈ flatten sampleCal ∧
    (0 : Int) ≤ 3 ∧
    ((∀ z w, tdadd sampleCal ⟨2025, 1, 11⟩ 3 = .ok z →
        tdsub sampleCal z 3 = .ok w → w = ⟨2025, 1, 11⟩) ∧
     (∀ z w, tdsub sampleCal ⟨2025, 1, 11⟩ 3 = .ok z →
        tdadd sampleCal z 3 = .ok w → w = ⟨2025, 1, 11⟩)) :=
  ⟨by decide, by decide, by decide,
    @c3_roundtrip sampleCal (by decide) ⟨2025, 1, 11⟩ (by decide) 3 (by decide)⟩

/-- Witness for C4 at the sample calendar with a = 2025-01-01 and
b = 2025-02-21. -/
theorem c4_monotone_reach_witness :
    WFcal sampleCal ∧ (⟨2025, 1, 1⟩ : TDate) ∈ flatten sampleCal ∧
    (⟨2025, 2, 21⟩ : TDate) ∈ flatten sampleCal ∧
    tdenc ⟨2025, 1, 1⟩ < tdenc ⟨2025, 2, 21⟩ ∧
    ((∃ t, next sampleCal ⟨2025, 1, 1⟩ = .ok t ∧
        tdenc t ≤ tdenc ⟨2025, 2, 21⟩) ∧
     (∃ n, nextN sampleCal n ⟨2025, 1, 1⟩ = .ok ⟨2025, 2, 21⟩)) :=
  ⟨by decide, by decide, by decide, by decide,
    @c4_monotone_reach sampleCal (by decide) ⟨2025, 1, 1⟩ ⟨2025, 2, 21⟩
      (by decide) (by decide) (by decide)⟩

/-- Witness for C5 at the sample calendar. -/
theorem c5_membership_invariant_witness :
    WFcal sampleCal ∧
    ((∀ (y : Int) (m d : Nat) t,
        get_nearest_date_after sampleCal y m d = .ok t →
          t ∈ flatten sampleCal) ∧
     (∀ (y : Int) (m d : Nat) t,
        get_nearest_date_before sampleCal y m d = .ok t →
          t ∈ flatten sampleCal) ∧
     (∀ x ∈ flatten sampleCal, ∀ (v : Int) z,
        tdadd sampleCal x v = .ok z → z ∈ flatten sampleCal) ∧
     (∀ x ∈ flatten sampleCal, ∀ (v : Int) z,
        tdsub sampleCal x v = .ok z → z ∈ flatten sampleCal) ∧
     (∀ (x t : TDate), next sampleCal x = .ok t → t ∈ flatten sampleCal) ∧
     (∀ (x t : TDate), lastDate sampleCal x = .ok t → t ∈ flatten sampleCal) ∧
     (∀ t, startDate sampleCal = .ok t → t ∈ flatten sampleCal) ∧
     (∀ t, endDate sampleCal = .ok t → t ∈ flatten sampleCal) ∧
     (∀ t ∈ flatten sampleCal, containsB sampleCal t = true)) :=
  ⟨by decide, c5_membership_invariant (by decide)⟩

/-- Witness for C7: registering the two-day list under "user-defined" in
the empty engine. -/
theorem c7_make_calendar_witness :
    ([20250101, 20250111] : List Int) ≠ [] ∧
    ((make_calendar [] "user-defined" [20250101, 20250111]).2 =
        .ok ⟨.whole, "user-defined", buildCalDict [20250101, 20250111]⟩ ∧
     get_calendar (make_calendar [] "user-defined" [20250101, 20250111]).1
        "user-defined" = .ok (buildCalDict [20250101, 20250111]) ∧
     ∀ k, k ≠ "user-defined" →
        get_calendar (make_calendar [] "user-defined" [20250101, 20250111]).1 k =
          get_calendar [] k) :=
  ⟨by decide, c7_make_calendar [] "user-defined" [20250101, 20250111]
    (by decide)⟩

/-- Witness for C9: the week view of 2025-01-21 (a Tuesday) on the sample
calendar is the singleton day-set containing that day. -/
theorem c9_week_view_witness :
    week sampleCal ⟨2025, 1, 21⟩ = .ok [(2025, [(1, [21])])] ∧
    ((flatten [(2025, [(1, [21])])]).length ≤ 7 ∧
     ∀ u ∈ flatten [(2025, [(1, [21])])],
        u ∈ weekWindow ⟨2025, 1, 21⟩ ∧ containsB sampleCal u = true) :=
  ⟨rfl, @c9_week_view sampleCal ⟨2025, 1, 21⟩ [(2025, [(1, [21])])] rfl⟩

/-- Witness for C10 at the sample calendar and the non-member date
2025-01-05. -/
theorem c10_totality_witness :
    WFcal sampleCal ∧
    (((∀ t, get_nearest_date_after sampleCal 2025 1 5 = .ok t →
        t ∈ flatten sampleCal) ∧
      (∀ e, get_nearest_date_after sampleCal 2025 1 5 = .error e →
        e = .outOfCalendar)) ∧
     ((∀ t, get_nearest_date_before sampleCal 2025 1 5 = .ok t →
        t ∈ flatten sampleCal) ∧
      (∀ e, get_nearest_date_before sampleCal 2025 1 5 = .error e →
        e = .outOfCalendar))) :=
  ⟨by decide, c10_totality (by decide) 2025 1 5⟩

end Tradingdate
